import Mathlib

/-!
Shallow embedding of the webpack-deconstructor pipeline
(src/webpack-deconstructor.js).  Strings are modelled as `List Char`;
each JavaScript regular-expression scan of the source is translated into
an executable recursive scanner with the same backtracking semantics
(lazy quantifiers take the first position at which the rest of the
pattern matches, greedy character classes take the maximal run, string
`replace` with a string pattern replaces the first occurrence, a global
regex replace rewrites matches left to right and never rescans its own
replacement text).
-/

/-- Character-list view of a string literal. -/
def chars (s : String) : List Char := s.data

/-- JavaScript whitespace in the ASCII range, as matched by the regex
class for whitespace and by trim. -/
def isJsWs (c : Char) : Bool :=
  c = ' ' || c = '\t' || c = '\n' || c = '\r' || c = '\x0b' || c = '\x0c'

/-- Model of the JavaScript string trim: drop whitespace from both ends. -/
def trimChars (t : List Char) : List Char :=
  ((t.dropWhile isJsWs).reverse.dropWhile isJsWs).reverse

/-- Drop a literal prefix, returning the rest when the prefix is present. -/
def dropPre? (p t : List Char) : Option (List Char) :=
  if p.isPrefixOf t then some (t.drop p.length) else none

/-- Split at the first occurrence of a character: the part before it and
the suffix starting at it.  Models a greedy negated character class that
must be followed by that character. -/
def scanUntil (c : Char) : List Char → Option (List Char × List Char)
  | [] => none
  | x :: t =>
    if x = c then some ([], x :: t)
    else
      match scanUntil c t with
      | some (a, b) => some (x :: a, b)
      | none => none

/-- Maximal whitespace run at the front (greedy whitespace-star). -/
def wsRun : List Char → List Char × List Char
  | [] => ([], [])
  | c :: t =>
    if isJsWs c then (c :: (wsRun t).1, (wsRun t).2)
    else ([], c :: t)

/-- Substring test (used for the indexOf checks of the source). -/
def containsSubB (p : List Char) : List Char → Bool
  | [] => p.isPrefixOf ([] : List Char)
  | c :: t => p.isPrefixOf (c :: t) || containsSubB p t

/-- Model of the JavaScript split on a comma: a list of fragments, one
more than the number of commas. -/
def splitOnComma : List Char → List (List Char)
  | [] => [[]]
  | c :: t =>
    match splitOnComma t with
    | s :: ss => if c = ',' then [] :: s :: ss else (c :: s) :: ss
    | [] => [[c]]

/-- Model of the JavaScript string replace with a string pattern: the
first occurrence of the (non-empty) pattern is replaced. -/
def replaceFirst (p r : List Char) : List Char → List Char
  | [] => []
  | c :: t =>
    if p.isPrefixOf (c :: t) then r ++ (c :: t).drop p.length
    else c :: replaceFirst p r t

/-! ## Bundle Scanner (parseModules, source lines 54-97)

The module regex of the source is

  `/\/\*\*\*\/ "([^"]+)":\s*[\s\S]*?\/\*\*\*\/ \(function\(([^)]*)\) \{\s*([\s\S]*?)\n\/\*\*\*\/ \}\),?\s*(?=\/\*\*\*\/ "|$)/g`

run with exec over the bundle text starting at the registry marker.  The
scanner below reproduces its backtracking semantics:

* the match must start at an occurrence of the path-declaration marker;
  the path is the non-empty run up to the next quote, which must be
  followed by a colon;
* the lazy gap before the wrapper opener makes the engine try each
  occurrence of the opener in order, moving on when the rest fails;
* the parameter list is the run up to the first closing parenthesis,
  which must be followed by a space and an opening brace;
* after the greedy whitespace-star, the lazy body group ends at the
  first close-marker occurrence whose tail also matches (an optional
  comma, greedy whitespace, then a lookahead requiring the next
  path-declaration marker or the end of the registry text); when no
  such position at or after the end of the whitespace run exists, the
  engine backtracks the whitespace-star by one character, which can
  succeed only when that character is the newline of the close marker,
  giving an empty body group.
-/

/-- Registry opening marker searched with indexOf (source line 56). -/
def registryMark : List Char := chars "/******/ (\x7b"

/-- Module path declaration marker. -/
def declMark : List Char := chars "/***/ \x22"

/-- Wrapper function opener marker. -/
def openerMark : List Char := chars "/***/ (function("

/-- Wrapper close marker. -/
def closeMark : List Char := chars "\n/***/ \x7d)"

/-- Literal between the parameter list and the body. -/
def paramClose : List Char := chars ") \x7b"

/-- Literal between the module path and the gap before the opener. -/
def pathSep : List Char := chars "\x22:"

/-- Consume the optional comma after the wrapper close. -/
def dropComma (t : List Char) : List Char :=
  match t with
  | c :: r => if c = ',' then r else c :: r
  | [] => []

/-- Tail of the wrapper close: an optional comma, greedy whitespace,
then the lookahead requiring the next path declaration or the end of
the registry text.  Returns the text at the position where the match
ends (after the consumed whitespace). -/
def anchorTail? (t : List Char) : Option (List Char) :=
  if (wsRun (dropComma t)).2 = [] || declMark.isPrefixOf (wsRun (dropComma t)).2 then
    some ((wsRun (dropComma t)).2)
  else none

/-- Does an anchored wrapper close start here?  When it does, return
the text at the end of the whole match. -/
def anchoredAt? (t : List Char) : Option (List Char) :=
  match dropPre? closeMark t with
  | some u => anchorTail? u
  | none => none

/-- Lazy scan for the first anchored wrapper close: splits the text into
the body group and the suffix starting at the close marker. -/
def findAC : List Char → Option (List Char × List Char)
  | [] => none
  | c :: t =>
    if (anchoredAt? (c :: t)).isSome then some ([], c :: t)
    else
      match findAC t with
      | some (b, r) => some (c :: b, r)
      | none => none

/-- Try to match the wrapper opener, parameter list, body and anchored
close at this exact position; returns the parameter text, the raw body
group and the text at the end of the match. -/
def tryOpenAt (t : List Char) : Option (List Char × List Char × List Char) :=
  match dropPre? openerMark t with
  | none => none
  | some r1 =>
    match scanUntil ')' r1 with
    | none => none
    | some (params, r2) =>
      match dropPre? paramClose r2 with
      | none => none
      | some r3 =>
        match findAC (wsRun r3).2 with
        | some (b, rc) =>
          match anchoredAt? rc with
          | some e2 => some (params, b, e2)
          | none => none
        | none =>
          if (wsRun r3).1.getLast? = some '\n' then
            match anchoredAt? ('\n' :: (wsRun r3).2) with
            | some e2 => some (params, [], e2)
            | none => none
          else none

/-- Lazy scan for the first wrapper opener at which the rest of the
module pattern matches. -/
def findOpen : List Char → Option (List Char × List Char × List Char)
  | [] => none
  | c :: t =>
    match tryOpenAt (c :: t) with
    | some r => some r
    | none => findOpen t

/-- One module record as stored by the Scanner (source lines 82-87):
the path key, the trimmed wrapper parameters and the trimmed body. -/
structure WRecord where
  path : List Char
  params : List (List Char)
  content : List Char
deriving DecidableEq, Repr

/-- Try to match the whole module pattern starting exactly here. -/
def tryStartAt (t : List Char) : Option (WRecord × List Char) :=
  match dropPre? declMark t with
  | none => none
  | some r1 =>
    match scanUntil '"' r1 with
    | none => none
    | some (path, r2) =>
      if path = [] then none
      else
        match dropPre? pathSep r2 with
        | none => none
        | some r3 =>
          match findOpen r3 with
          | some (params, body, e2) =>
            some ({ path := path
                    params := (splitOnComma params).map trimChars
                    content := trimChars body }, e2)
          | none => none

/-- Path prefix excluded by the Scanner (source line 81). -/
def excludedPrefix : List Char := chars "./node_modules/"

/-- Exec loop over the registry text, with the in-loop exclusion filter
of the source (line 81); fuel bounds the number of scanning steps and is
always called with more fuel than there are characters. -/
def scanAux : Nat → List Char → List WRecord
  | 0, _ => []
  | _, [] => []
  | fuel + 1, c :: t =>
    match tryStartAt (c :: t) with
    | some (r, e2) =>
      if excludedPrefix.isPrefixOf r.path then scanAux fuel e2
      else r :: scanAux fuel e2
    | none => scanAux fuel t

/-- The same exec loop without the exclusion filter: every raw match. -/
def rawScanAux : Nat → List Char → List WRecord
  | 0, _ => []
  | _, [] => []
  | fuel + 1, c :: t =>
    match tryStartAt (c :: t) with
    | some (r, e2) => r :: rawScanAux fuel e2
    | none => rawScanAux fuel t

/-- Suffix of the bundle starting at the registry marker, when present
(the indexOf plus substring of source lines 56-63). -/
def registryOf? : List Char → Option (List Char)
  | [] => none
  | c :: t => if registryMark.isPrefixOf (c :: t) then some (c :: t) else registryOf? t

/-- The two fatal Scanner errors (source lines 59 and 95). -/
inductive PError where
  | formatError
  | noModulesFound
deriving DecidableEq, Repr

deriving instance DecidableEq for Except

/-- Records produced by the exec loop on the registry section. -/
def scannedRecords (b : List Char) : List WRecord :=
  match registryOf? b with
  | none => []
  | some sec => scanAux (sec.length + 1) sec

/-- Raw (unfiltered) matches of the module regex on the registry section. -/
def rawScannedRecords (b : List Char) : List WRecord :=
  match registryOf? b with
  | none => []
  | some sec => rawScanAux (sec.length + 1) sec

/-- The Bundle Scanner (source lines 54-97): fails when the registry
marker is absent, fails when no records survive the filter, and returns
the filtered records otherwise. -/
def parseModules (b : List Char) : Except PError (List WRecord) :=
  match registryOf? b with
  | none => .error .formatError
  | some sec =>
    let recs := scanAux (sec.length + 1) sec
    if recs = [] then .error .noModulesFound else .ok recs

/-! ## Path Resolver (calculateRelativePath, source lines 230-246)

The source uses the platform path library: dirname of the from-path and
a segment-wise relative-path computation from that directory to the
to-path.  Both inputs are bundle-internal logical paths (relative,
slash-separated), so the computation is modelled directly on segment
lists: drop the common prefix, then one parent-directory segment per
remaining from-segment followed by the remaining to-segments. -/

/-- Split on a separator character; always returns one more fragment
than there are separators. -/
def splitOnChar (sep : Char) : List Char → List (List Char)
  | [] => [[]]
  | c :: t =>
    match splitOnChar sep t with
    | s :: ss => if c = sep then [] :: s :: ss else (c :: s) :: ss
    | [] => [[c]]

/-- Model of the anchored replace stripping one leading current-directory
marker (source lines 232-233, also line 125). -/
def stripDotSlash (p : List Char) : List Char :=
  if (chars "./").isPrefixOf p then p.drop 2 else p

/-- Slash-separated segments of a path. -/
def segsOf (p : List Char) : List (List Char) := splitOnChar '/' p

/-- Join segments with slashes. -/
def joinSegs : List (List Char) → List Char
  | [] => []
  | [s] => s
  | s :: ss => s ++ '/' :: joinSegs ss

/-- Directory of a path as a segment list (empty list means the current
directory), matching dirname on a relative slash path. -/
def dirSegsOf (p : List Char) : List (List Char) := (segsOf p).dropLast

/-- Segment-wise relative path: drop the common prefix, then go up once
per remaining from-segment and descend into the remaining to-segments. -/
def relSegs : List (List Char) → List (List Char) → List (List Char)
  | a :: f, b :: t =>
    if a = b then relSegs f t
    else List.replicate (a :: f).length (chars "..") ++ b :: t
  | [], t => t
  | f, [] => List.replicate f.length (chars "..")

/-- The Path Resolver (source lines 230-246): strip the leading
current-directory markers, compute the relative path from the
from-directory to the to-path, and prefix the current-directory marker
when the result does not already start with a dot. -/
def calculateRelativePath (fromPath toPath : List Char) : List Char :=
  let cleanFromPath := stripDotSlash fromPath
  let cleanToPath := stripDotSlash toPath
  let relativePath := joinSegs (relSegs (dirSegsOf cleanFromPath) (segsOf cleanToPath))
  if (chars ".").isPrefixOf relativePath then relativePath
  else chars "./" ++ relativePath

/-! ## Import Rewriter (transformImports and helpers, source lines 183-306) -/

/-- Start character of a JavaScript identifier, the regex class used by
the usage-replacement patterns. -/
def isIdentStart (c : Char) : Bool := c.isAlpha || c = '_' || c = '$'

/-- Continuation character of a JavaScript identifier. -/
def isIdentChar (c : Char) : Bool := c.isAlphanum || c = '_' || c = '$'

/-- Generated module-index marker appearing in bundler variable names. -/
def wimMark : List Char := chars "__WEBPACK_IMPORTED_MODULE_"

/-- Lazy search for the stem of a bundler variable name against the
anchored pattern underscore, lazy group, marker, digits, two trailing
underscores, end (source line 259): the group takes the first non-empty
prefix whose remainder matches exactly. -/
def lazyStemAux : List Char → List Char → Option (List Char)
  | _, [] => none
  | acc, c :: t =>
    match dropPre? wimMark t with
    | some u =>
      let d := u.takeWhile Char.isDigit
      if d ≠ [] && u.drop d.length = chars "__" then some (acc.reverse ++ [c])
      else lazyStemAux (c :: acc) t
    | none => lazyStemAux (c :: acc) t

/-- Stem extraction from a local binding name carrying the generated
module-index suffix (source lines 259-261). -/
def varNameMatch : List Char → Option (List Char)
  | c :: rest => if c = '_' then lazyStemAux [] rest else none
  | [] => none

/-- Test of the single-capitalized-word pattern (source line 264). -/
def isPascalB : List Char → Bool
  | c :: r => c.isUpper && r.all Char.isAlphanum
  | [] => false

/-- One trailing script extension is stripped before a path is embedded
in an import statement (source line 253). -/
def stripExtension (p : List Char) : List Char :=
  if (chars ".ts").isSuffixOf p || (chars ".js").isSuffixOf p then
    p.take (p.length - 3)
  else p

/-- Fallback extraction of the first identifier of a variable name
(source line 275). -/
def firstIdent : List Char → Option (List Char)
  | [] => none
  | c :: t => if isIdentStart c then some (c :: t.takeWhile isIdentChar) else firstIdent t

/-- Text of a default import statement. -/
def mkDefaultImport (name cp : List Char) : List Char :=
  chars "import " ++ name ++ chars " from \x27" ++ cp ++ chars "\x27;"

/-- Text of a named import statement. -/
def mkNamedImport (name cp : List Char) : List Char :=
  chars "import \x7b " ++ name ++ chars " \x7d from \x27" ++ cp ++ chars "\x27;"

/-- The import statement generator (source lines 251-281). -/
def generateImportStatement (varName relativePath : List Char) : Option (List Char) :=
  let cleanPath := stripExtension relativePath
  match (if containsSubB wimMark varName then varNameMatch varName else none) with
  | some importName =>
    if isPascalB importName && !(importName.contains '_') then
      some (mkDefaultImport importName cleanPath)
    else
      some (mkNamedImport (importName.filter (fun c => c ≠ '_')) cleanPath)
  | none =>
    match firstIdent varName with
    | some n => some (mkNamedImport n cleanPath)
    | none => none

/-- Leading literal of both harmony import patterns. -/
def harmonyLead : List Char := chars "/* harmony import */ var "

/-- Try to match the annotated harmony import pattern (source line 188)
at this exact position; returns the full match, the raw variable-name
group, the resolved module path group and the text after the match. -/
def tryHarmonyAt (t : List Char) :
    Option (List Char × List Char × List Char × List Char) :=
  match dropPre? harmonyLead t with
  | none => none
  | some r1 =>
    match scanUntil '=' r1 with
    | none => none
    | some (run, rEq) =>
      if run.getLast? = some ' ' && 2 ≤ run.length then
        match dropPre? (chars "= __webpack_require__(/*! ") rEq with
        | none => none
        | some r2 =>
          match scanUntil '*' r2 with
          | none => none
          | some (run2, rStar) =>
            if run2.getLast? = some ' ' && 2 ≤ run2.length then
              match dropPre? (chars "*/ \x22") rStar with
              | none => none
              | some r3 =>
                match scanUntil '"' r3 with
                | none => none
                | some (wp, rQ) =>
                  if wp = [] then none
                  else
                    match dropPre? (chars "\x22)") rQ with
                    | none => none
                    | some r4 =>
                      let r5 := match r4 with | ';' :: r => r | _ => r4
                      let rest := (wsRun r5).2
                      some (t.take (t.length - rest.length), run.dropLast, wp, rest)
            else none
      else none

/-- Leftmost occurrence of the annotated harmony import pattern. -/
def findHarmony : List Char → Option (List Char × List Char × List Char × List Char)
  | [] => none
  | c :: t =>
    match tryHarmonyAt (c :: t) with
    | some r => some r
    | none => findHarmony t

/-- Exec loop collecting all annotated harmony imports of the original
body text in match order (source lines 190-205). -/
def harmonyMatches : Nat → List Char → List (List Char × List Char × List Char)
  | 0, _ => []
  | fuel + 1, t =>
    match findHarmony t with
    | some (full, v, wp, rest) => (full, v, wp) :: harmonyMatches fuel rest
    | none => []

/-- Try to match the interop-default wrapper pattern (source line 208)
at this exact position; returns the full match and the rest. -/
def tryDefaultAt (t : List Char) : Option (List Char × List Char) :=
  match dropPre? harmonyLead t with
  | none => none
  | some r1 =>
    match scanUntil '=' r1 with
    | none => none
    | some (run, rEq) =>
      if (chars "___default ").isSuffixOf run && 12 ≤ run.length then
        match dropPre? (chars "= /*#__PURE__*/__webpack_require__.n(") rEq with
        | none => none
        | some r2 =>
          match scanUntil ')' r2 with
          | none => none
          | some (arg, rP) =>
            if arg = [] then none
            else
              match dropPre? (chars ");") rP with
              | none => none
              | some r4 => some (t.take (t.length - ((wsRun r4).2).length), (wsRun r4).2)
      else none

/-- Leftmost occurrence of the interop-default wrapper pattern. -/
def findDefaultImp : List Char → Option (List Char × List Char)
  | [] => none
  | c :: t =>
    match tryDefaultAt (c :: t) with
    | some r => some r
    | none => findDefaultImp t

/-- Exec loop collecting all interop-default wrapper matches (source
lines 210-214). -/
def defaultMatches : Nat → List Char → List (List Char)
  | 0, _ => []
  | fuel + 1, t =>
    match findDefaultImp t with
    | some (full, rest) => full :: defaultMatches fuel rest
    | none => []

/-- Generic left-to-right global replacement: at each position try a
match; on success emit the replacement and continue after the match
(never rescanning the replacement), otherwise keep the character. -/
def replaceScan (tryAt : List Char → Option (List Char × List Char)) :
    Nat → List Char → List Char
  | 0, t => t
  | _, [] => []
  | fuel + 1, c :: t =>
    match tryAt (c :: t) with
    | some (repl, rest) => repl ++ replaceScan tryAt fuel rest
    | none => c :: replaceScan tryAt fuel t

/-- Greedy split search: the group takes the longest prefix of the
identifier run after which the rest of the pattern matches. -/
def bestSplit {α : Type} (check : List Char → Option α) (t : List Char) :
    Nat → Option (Nat × α)
  | 0 => none
  | k + 1 =>
    match check (t.drop (k + 1)) with
    | some a => some (k + 1, a)
    | none => bestSplit check t k

/-- Tail of the bracket-lookup usage pattern (source line 291) after the
identifier group: marker, digits, two underscores, bracketed quoted
name; returns the name group and the rest. -/
def bracketTail (u : List Char) : Option (List Char × List Char) :=
  match dropPre? wimMark u with
  | none => none
  | some u1 =>
    let d := u1.takeWhile Char.isDigit
    if d = [] then none
    else
      match dropPre? (chars "__[\x22") (u1.drop d.length) with
      | none => none
      | some u2 =>
        match scanUntil '"' u2 with
        | none => none
        | some (name, rQ) =>
          if name = [] then none
          else
            match dropPre? (chars "\x22]") rQ with
            | none => none
            | some rest => some (name, rest)

/-- Bracket-lookup usage replacement at one position (source lines
291-292): the whole match is replaced by the quoted name. -/
def tryBracketAt (t : List Char) : Option (List Char × List Char) :=
  match t with
  | [] => none
  | c :: _ =>
    if isIdentStart c then
      match bestSplit bracketTail t (t.takeWhile isIdentChar).length with
      | some (_, (name, rest)) => some (name, rest)
      | none => none
    else none

/-- Lazy stem search for the inner anchored pattern of the
interop-default usage replacement (source line 297), whose tail is the
marker followed by digits up to the end (no trailing underscores). -/
def lazyStemAux2 : List Char → List Char → Option (List Char)
  | _, [] => none
  | acc, c :: t =>
    match dropPre? wimMark t with
    | some u =>
      if u ≠ [] && u.all Char.isDigit then some (acc.reverse ++ [c])
      else lazyStemAux2 (c :: acc) t
    | none => lazyStemAux2 (c :: acc) t

/-- Interop-default usage replacement at one position (source lines
295-299): an identifier followed by the interop-default suffix is
replaced by the recovered stem when the variable matches the inner
pattern, otherwise by the variable name unchanged. -/
def tryDefaultUsageAt (t : List Char) : Option (List Char × List Char) :=
  match t with
  | [] => none
  | c :: _ =>
    if isIdentStart c then
      match bestSplit (dropPre? (chars "___default")) t (t.takeWhile isIdentChar).length with
      | some (k, rest) =>
        let varName := t.take k
        let repl :=
          match (match varName with
                 | '_' :: r => lazyStemAux2 [] r
                 | _ => none) with
          | some stem => stem
          | none => varName
        some (repl, rest)
      | none => none
    else none

/-- Tail of the direct-usage pattern (source line 302) after the
identifier group: marker, digits, two underscores. -/
def directTail (u : List Char) : Option (List Char) :=
  match dropPre? wimMark u with
  | none => none
  | some u1 =>
    let d := u1.takeWhile Char.isDigit
    if d = [] then none
    else dropPre? (chars "__") (u1.drop d.length)

/-- Direct module-variable usage replacement at one position (source
lines 302-303): the whole match is replaced by the identifier group. -/
def tryDirectAt (t : List Char) : Option (List Char × List Char) :=
  match t with
  | '_' :: u =>
    match u with
    | [] => none
    | c2 :: _ =>
      if isIdentStart c2 then
        match bestSplit directTail u (u.takeWhile isIdentChar).length with
        | some (k, rest) => some (u.take k, rest)
        | none => none
      else none
  | _ => none

/-- Usage rewriting (source lines 286-306): the three global textual
replacements applied in sequence. -/
def replaceImportUsage (content : List Char) : List Char :=
  let c1 := replaceScan tryBracketAt (content.length + 1) content
  let c2 := replaceScan tryDefaultUsageAt (c1.length + 1) c1
  replaceScan tryDirectAt (c2.length + 1) c2

/-- Join with newlines (model of the join of source line 221). -/
def joinNL : List (List Char) → List Char
  | [] => []
  | [s] => s
  | s :: ss => s ++ '\n' :: joinNL ss

/-- The Import Rewriter (source lines 183-225): collect annotated
imports over the original body, generate an import statement for each
(removing the matched boilerplate from the evolving body when one is
generated), remove interop-default wrappers, rewrite usages, and
prepend the generated import statements. -/
def transformImports (content currentModulePath : List Char) : List Char :=
  let ms := harmonyMatches (content.length + 1) content
  let step := ms.foldl
    (fun (acc : List Char × List (List Char)) m =>
      match m with
      | (full, v, wp) =>
        let rel := calculateRelativePath currentModulePath wp
        match generateImportStatement (trimChars v) rel with
        | some st => (replaceFirst full [] acc.1, acc.2 ++ [st])
        | none => acc)
    (content, ([] : List (List Char)))
  let dms := defaultMatches (content.length + 1) content
  let t2 := dms.foldl (fun acc full => replaceFirst full [] acc) step.1
  let t3 := replaceImportUsage t2
  if step.2 = [] then t3 else joinNL step.2 ++ chars "\n\n" ++ t3

/-! ## Export Rewriter (transformExports and helpers, source lines 311-404) -/

/-- Declaration kind tag assigned by classification. -/
inductive DKind where
  | cls
  | fn
  | var
deriving DecidableEq, Repr

/-- One entry of the exports list: either a ready-made statement (the
CommonJS whole-module case) or a classified declaration. -/
inductive ExportInfo where
  | stmt (s : List Char)
  | decl (k : DKind) (name : List Char)
deriving DecidableEq, Repr

/-- Try to match keyword, mandatory whitespace, the interpolated name,
optional whitespace and a closing character at this position (the shape
of the declaration-detection regexes of source lines 353-357); returns
the rest after the closing character.  The interpolated name is
expected to start with a non-whitespace character, which makes the
greedy whitespace run deterministic. -/
def tryDeclAt (kw name : List Char) (close : Char) (t : List Char) : Option (List Char) :=
  match dropPre? kw t with
  | none => none
  | some r1 =>
    if (wsRun r1).1 = [] then none
    else
      match dropPre? name (wsRun r1).2 with
      | none => none
      | some r3 =>
        match (wsRun r3).2 with
        | c :: rest => if c = close then some rest else none
        | [] => none

/-- Does a declaration of the given shape occur anywhere in the body? -/
def hasDeclB (kw name : List Char) (close : Char) : List Char → Bool
  | [] => false
  | c :: t => (tryDeclAt kw name close (c :: t)).isSome || hasDeclB kw name close t

/-- The export classifier (source lines 351-368): class first, then
function, then the three variable forms, with a variable fallback; the
recorded name is the exported local expression. -/
def generateExportStatement (_exportName exportValue content : List Char) : ExportInfo :=
  if hasDeclB (chars "class") exportValue '\x7b' content then .decl .cls exportValue
  else if hasDeclB (chars "function") exportValue '(' content then .decl .fn exportValue
  else if hasDeclB (chars "const") exportValue '=' content
      || hasDeclB (chars "let") exportValue '=' content
      || hasDeclB (chars "var") exportValue '=' content then .decl .var exportValue
  else .decl .var exportValue

/-- Class declaration rewrite at one position (source lines 387-388). -/
def classRepl (name : List Char) (t : List Char) : Option (List Char × List Char) :=
  (tryDeclAt (chars "class") name '\x7b' t).map
    (fun rest => (chars "export class " ++ name ++ chars " \x7b", rest))

/-- Function declaration rewrite at one position (source lines 392-393). -/
def fnRepl (name : List Char) (t : List Char) : Option (List Char × List Char) :=
  (tryDeclAt (chars "function") name '(' t).map
    (fun rest => (chars "export function " ++ name ++ chars "(", rest))

/-- Application of the export statements (source lines 373-404): direct
statements are appended, class and function declarations are rewritten
in place (globally), and the variable kind appends a trailing
named-export clause. -/
def applyExportStatements (content : List Char) (exps : List ExportInfo) : List Char :=
  exps.foldl
    (fun acc e =>
      match e with
      | .stmt s => acc ++ '\n' :: s
      | .decl .cls name => replaceScan (classRepl name) (acc.length + 1) acc
      | .decl .fn name => replaceScan (fnRepl name) (acc.length + 1) acc
      | .decl .var name => acc ++ chars "\nexport \x7b " ++ name ++ chars " \x7d;")
    content

/-- Backtracking boundary of mandatory greedy whitespace followed by a
non-empty group inside a span delimited by the following semicolon: the
whitespace takes its maximal run unless that leaves the group empty, in
which case it gives back exactly its last character. -/
def wsPlusGroup (tspan : List Char) : Option (List Char) :=
  let w := tspan.takeWhile isJsWs
  if w.length = tspan.length then
    if 2 ≤ tspan.length then tspan.getLast?.map (fun c => [c]) else none
  else if w = [] then none
  else some (tspan.drop w.length)

/-- Variant of the boundary for optional leading whitespace. -/
def wsStarGroup (tspan : List Char) : Option (List Char) :=
  let w := tspan.takeWhile isJsWs
  if w.length = tspan.length then
    if 1 ≤ tspan.length then tspan.getLast?.map (fun c => [c]) else none
  else some (tspan.drop w.length)

/-- Try to match the harmony export-binding registration (source line
316) at this exact position; returns the full match, the external name,
the returned local expression and the rest. -/
def tryExportBindAt (t : List Char) :
    Option (List Char × List Char × List Char × List Char) :=
  match dropPre? (chars "__webpack_require__.d(__webpack_exports__,") t with
  | none => none
  | some r1 =>
    match (wsRun r1).2 with
    | '"' :: r2 =>
      match scanUntil '"' r2 with
      | none => none
      | some (name, rQ) =>
        if name = [] then none
        else
          match rQ with
          | '"' :: ',' :: r4 =>
            let r5 := (wsRun r4).2
            match dropPre? (chars "function()") r5 with
            | none => none
            | some r6 =>
              match (wsRun r6).2 with
              | '\x7b' :: r7 =>
                let r8 := (wsRun r7).2
                match dropPre? (chars "return") r8 with
                | none => none
                | some r9 =>
                  match scanUntil ';' r9 with
                  | none => none
                  | some (tspan, rSemi) =>
                    match wsPlusGroup tspan with
                    | none => none
                    | some value =>
                      match rSemi with
                      | ';' :: r10 =>
                        match (wsRun r10).2 with
                        | '\x7d' :: r11 =>
                          match dropPre? (chars ");") r11 with
                          | none => none
                          | some r12 =>
                            let rest := (wsRun r12).2
                            some (t.take (t.length - rest.length), name, value, rest)
                        | _ => none
                      | _ => none
              | _ => none
          | _ => none
    | _ => none

/-- Leftmost occurrence of the export-binding registration. -/
def findExportBind : List Char → Option (List Char × List Char × List Char × List Char)
  | [] => none
  | c :: t =>
    match tryExportBindAt (c :: t) with
    | some r => some r
    | none => findExportBind t

/-- Exec loop collecting export-binding registrations in match order. -/
def exportBindMatches : Nat → List Char → List (List Char × List Char × List Char)
  | 0, _ => []
  | fuel + 1, t =>
    match findExportBind t with
    | some (full, name, value, rest) => (full, name, value) :: exportBindMatches fuel rest
    | none => []

/-- Try to match the CommonJS whole-module assignment (source line 335)
at this exact position; returns the full match, the assigned expression
and the rest. -/
def tryModuleExportsAt (t : List Char) : Option (List Char × List Char × List Char) :=
  match dropPre? (chars "module.exports") t with
  | none => none
  | some r1 =>
    match (wsRun r1).2 with
    | '=' :: r2 =>
      match (match scanUntil ';' r2 with
             | some (a, b) => some (a, b)
             | none => some (r2, ([] : List Char))) with
      | some (span, rr) =>
        match wsStarGroup span with
        | none => none
        | some g =>
          let r3 := match rr with | ';' :: r => r | _ => rr
          let rest := (wsRun r3).2
          some (t.take (t.length - rest.length), g, rest)
      | none => none
    | _ => none

/-- Leftmost occurrence of the CommonJS whole-module assignment. -/
def findModuleExports : List Char → Option (List Char × List Char × List Char)
  | [] => none
  | c :: t =>
    match tryModuleExportsAt (c :: t) with
    | some r => some r
    | none => findModuleExports t

/-- Exec loop collecting CommonJS whole-module assignments. -/
def moduleExportsMatches : Nat → List Char → List (List Char × List Char)
  | 0, _ => []
  | fuel + 1, t =>
    match findModuleExports t with
    | some (full, value, rest) => (full, value) :: moduleExportsMatches fuel rest
    | none => []

/-- The Export Rewriter (source lines 311-346): collect binding
registrations over the original body (classifying each against the
evolving body before removing its matched text), collect CommonJS
assignments, then apply the collected export statements. -/
def transformExports (content : List Char) : List Char :=
  let ms := exportBindMatches (content.length + 1) content
  let step := ms.foldl
    (fun (acc : List Char × List ExportInfo) m =>
      match m with
      | (full, name, value) =>
        let e := generateExportStatement name value acc.1
        (replaceFirst full [] acc.1, acc.2 ++ [e]))
    (content, ([] : List ExportInfo))
  let mes := moduleExportsMatches (content.length + 1) content
  let step2 := mes.foldl
    (fun (acc : List Char × List ExportInfo) m =>
      match m with
      | (full, value) =>
        (replaceFirst full [] acc.1,
         acc.2 ++ [.stmt (chars "export default " ++ value ++ chars ";")]))
    (step.1, step.2)
  applyExportStatements step2.1 step2.2

/-! ## Artifact Finalizer (cleanupWebpackArtifacts, source lines 409-428)
and boilerplate removal (removeWebpackBoilerplate, source lines 168-178) -/

/-- Residual require-call removal at one position (source line 413): the
call with a non-empty parenthesis-free argument list is deleted. -/
def tryRequireCallAt (t : List Char) : Option (List Char × List Char) :=
  match dropPre? (chars "__webpack_require__(") t with
  | none => none
  | some r1 =>
    match scanUntil ')' r1 with
    | none => none
    | some (args, rP) =>
      if args = [] then none
      else
        match rP with
        | ')' :: rest => some ([], rest)
        | _ => none

/-- Harmony export comment removal at one position (source line 416). -/
def tryHarmonyExportAt (t : List Char) : Option (List Char × List Char) :=
  match dropPre? (chars "/* harmony export (") t with
  | none => none
  | some r1 =>
    match scanUntil ')' r1 with
    | none => none
    | some (args, rP) =>
      if args = [] then none
      else
        match dropPre? (chars ") */") rP with
        | none => none
        | some r2 => some ([], (wsRun r2).2)

/-- Bang-comment removal at one position (source line 419): after the
opening, the lazy star-free span must reach a star immediately followed
by a slash (no backtracking past the first star is possible). -/
def tryBangCommentAt (t : List Char) : Option (List Char × List Char) :=
  match dropPre? (chars "/*!") t with
  | none => none
  | some r1 =>
    match scanUntil '*' r1 with
    | none => none
    | some (_, rStar) =>
      match rStar with
      | '*' :: '/' :: rest => some ([], rest)
      | _ => none

/-- Count the leading newline run. -/
def nlRun : List Char → Nat × List Char
  | [] => (0, [])
  | c :: t =>
    if c = '\n' then ((nlRun t).1 + 1, (nlRun t).2)
    else (0, c :: t)

theorem nlRun_len (t : List Char) : (nlRun t).2.length ≤ t.length := by
  induction t with
  | nil => simp [nlRun]
  | cons c t ih =>
    by_cases h : c = '\n'
    · simp only [nlRun, if_pos h, List.length_cons]
      omega
    · simp [nlRun, h]

/-- Newline-run collapse (source line 422), fuelled recursion: every
run of three or more newline characters becomes exactly two. -/
def collapseNLAux : Nat → List Char → List Char
  | 0, t => t
  | _, [] => []
  | fuel + 1, c :: t =>
    if c = '\n' then
      (if 2 ≤ (nlRun t).1 then chars "\n\n"
       else '\n' :: List.replicate (nlRun t).1 '\n') ++ collapseNLAux fuel (nlRun t).2
    else c :: collapseNLAux fuel t

/-- Newline-run collapse at sufficient fuel. -/
def collapseNL (t : List Char) : List Char := collapseNLAux (t.length + 1) t

/-- Horizontal whitespace, the class stripped from line ends. -/
def isHTab (c : Char) : Bool := c = ' ' || c = '\t'

/-- Per-line trailing-whitespace strip (source line 425): a space or tab
is dropped when everything to its right up to the line end has been
dropped (the multiline end anchor also matches before a carriage
return). -/
def stripTrailingWS : List Char → List Char
  | [] => []
  | c :: t =>
    let r := stripTrailingWS t
    if isHTab c && (r = [] || r.head? = some '\n' || r.head? = some '\r') then r
    else c :: r

/-- The Artifact Finalizer (source lines 409-428): the five global
replacements in order. -/
def cleanupWebpackArtifacts (content : List Char) : List Char :=
  let c1 := replaceScan tryRequireCallAt (content.length + 1) content
  let c2 := replaceScan tryHarmonyExportAt (c1.length + 1) c1
  let c3 := replaceScan tryBangCommentAt (c2.length + 1) c2
  stripTrailingWS (collapseNL c3)

/-- Literal stripped from the start of a module body (source line 172). -/
def useStrictLit : List Char := chars "\x22use strict\x22;"

/-- Match of the exports-registration helper call removed globally
(source line 175). -/
def tryRequireRAt (t : List Char) : Option (List Char × List Char) :=
  (dropPre? (chars "__webpack_require__.r(__webpack_exports__);") t).map
    (fun r => (([] : List Char), (wsRun r).2))

/-- Boilerplate removal (source lines 168-178): the strict-mode prologue
is stripped when the body starts with it, then every exports-registration
helper call is removed. -/
def removeWebpackBoilerplate (content : List Char) : List Char :=
  let c1 := match dropPre? useStrictLit content with
            | some r => (wsRun r).2
            | none => content
  replaceScan tryRequireRAt (c1.length + 1) c1

/-- The per-module pipeline (source lines 147-163). -/
def transformModuleContent (content currentModulePath : List Char) : List Char :=
  trimChars
    (cleanupWebpackArtifacts
      (transformExports
        (transformImports (removeWebpackBoilerplate content) currentModulePath)))

/-- The whole run as a pure mapping: parse, then transform each record
independently, keyed by the path with its leading current-directory
marker stripped (source lines 113-137). -/
def deconstruct (b : List Char) : Except PError (List (List Char × List Char)) :=
  (parseModules b).map
    (fun recs =>
      recs.map (fun r => (stripDotSlash r.path, transformModuleContent r.content r.path)))

example : parseModules (chars "no registry here") = .error .formatError := by decide

example :
    parseModules
      (chars "x/******/ (\x7b\n/***/ \x22./a.js\x22:\n/***/ (function(module, exp) \x7b\nvar a = 1;\n/***/ \x7d),\n") =
      .ok [{ path := chars "./a.js"
             params := [chars "module", chars "exp"]
             content := chars "var a = 1;" }] := by decide

set_option maxRecDepth 1000000

/-! ## General lemmas about the string model -/

theorem dropPre?_eq {p t r : List Char} (h : dropPre? p t = some r) : t = p ++ r := by
  rw [dropPre?] at h
  by_cases hp : p.isPrefixOf t
  · rw [if_pos hp] at h
    obtain ⟨s, hs⟩ := List.isPrefixOf_iff_prefix.mp hp
    have hr := Option.some.inj h
    subst hr
    rw [← hs, List.drop_left]
  · rw [if_neg hp] at h
    exact absurd h (by simp)

theorem scanUntil_eq {c : Char} {t a b : List Char} (h : scanUntil c t = some (a, b)) :
    t = a ++ b := by
  induction t generalizing a b with
  | nil => simp [scanUntil] at h
  | cons x t ih =>
    rw [scanUntil] at h
    by_cases hx : x = c
    · rw [if_pos hx] at h
      have := Option.some.inj h
      rw [Prod.mk.injEq] at this
      obtain ⟨rfl, rfl⟩ := this
      rfl
    · rw [if_neg hx] at h
      cases hm : scanUntil c t with
      | none => rw [hm] at h; exact absurd h (by simp)
      | some pr =>
        obtain ⟨a', b'⟩ := pr
        rw [hm] at h
        simp only [Option.some.injEq, Prod.mk.injEq] at h
        obtain ⟨rfl, rfl⟩ := h
        simpa using ih hm

theorem wsRun_eq (t : List Char) : t = (wsRun t).1 ++ (wsRun t).2 := by
  induction t with
  | nil => rfl
  | cons c t ih =>
    rw [wsRun]
    by_cases h : isJsWs c
    · simp only [if_pos h]
      simpa using ih
    · simp [if_neg h]

theorem containsSubB_iff (p t : List Char) :
    containsSubB p t = true ↔ ∃ a b, t = a ++ p ++ b := by
  induction t with
  | nil =>
    simp only [containsSubB]
    constructor
    · intro h
      have := List.prefix_nil.mp (List.isPrefixOf_iff_prefix.mp h)
      exact ⟨[], [], by simp [this]⟩
    · rintro ⟨a, b, hab⟩
      have ha : a = [] ∧ p = [] ∧ b = [] := by
        have := hab.symm
        simpa [List.append_eq_nil] using this
      simp [ha.2.1]
  | cons c t ih =>
    simp only [containsSubB, Bool.or_eq_true, ih]
    constructor
    · rintro (h | ⟨a, b, rfl⟩)
      · obtain ⟨s, hs⟩ := List.isPrefixOf_iff_prefix.mp h
        exact ⟨[], s, by simp [← hs]⟩
      · exact ⟨c :: a, b, by simp⟩
    · rintro ⟨a, b, hab⟩
      cases a with
      | nil =>
        left
        apply List.isPrefixOf_iff_prefix.mpr
        exact ⟨b, by simpa using hab.symm⟩
      | cons a0 a' =>
        right
        simp only [List.cons_append, List.cons.injEq] at hab
        exact ⟨a', b, hab.2⟩

theorem containsSubB_of_decomp {p t a b : List Char} (h : t = a ++ p ++ b) :
    containsSubB p t = true :=
  (containsSubB_iff p t).mpr ⟨a, b, h⟩

theorem containsSubB_mono {p u t : List Char} (hinf : u <:+: t)
    (h : containsSubB p u = true) : containsSubB p t = true := by
  obtain ⟨a, b, rfl⟩ := (containsSubB_iff p u).mp h
  obtain ⟨x, y, rfl⟩ := hinf
  exact containsSubB_of_decomp (t := x ++ (a ++ p ++ b) ++ y) (a := x ++ a) (b := b ++ y)
    (by simp)

theorem trimChars_prefix_dropWhile (t : List Char) :
    trimChars t <+: t.dropWhile isJsWs := by
  rw [trimChars]
  have h2 := List.reverse_prefix.mpr
    (List.dropWhile_suffix (l := (t.dropWhile isJsWs).reverse) isJsWs)
  rwa [List.reverse_reverse] at h2

theorem trimChars_contained (t : List Char) : trimChars t <:+: t :=
  (trimChars_prefix_dropWhile t).isInfix.trans (List.dropWhile_suffix isJsWs).isInfix

theorem dropWhile_head_not {p : Char → Bool} (l : List Char) {c : Char}
    (h : (l.dropWhile p).head? = some c) : p c = false := by
  induction l with
  | nil => simp at h
  | cons x l ih =>
    rw [List.dropWhile_cons] at h
    by_cases hx : p x
    · rw [if_pos hx] at h
      exact ih h
    · rw [if_neg hx] at h
      simp only [List.head?_cons, Option.some.injEq] at h
      rw [← h]
      simpa using hx

theorem trimChars_head_not_ws (t : List Char) {c : Char}
    (h : (trimChars t).head? = some c) : isJsWs c = false := by
  obtain ⟨s, hs⟩ := trimChars_prefix_dropWhile t
  cases hv : trimChars t with
  | nil => rw [hv] at h; simp at h
  | cons v0 v' =>
    rw [hv] at h hs
    simp only [List.head?_cons, Option.some.injEq] at h
    apply dropWhile_head_not t (c := c)
    rw [← hs]
    simp [h]

theorem trimChars_last_not_ws (t : List Char) {c : Char}
    (h : (trimChars t).getLast? = some c) : isJsWs c = false := by
  rw [trimChars, List.getLast?_reverse] at h
  exact dropWhile_head_not (t.dropWhile isJsWs).reverse h

/-! ## Claim C3: Path Resolver output shape -/

/-- Claim C3 counterexample: for the bundle-internal logical paths
from = ./a/b/c.ts and to = ./a the Path Resolver returns the bare
parent-directory specifier, which begins with neither the
current-directory marker nor the parent-directory-slash marker. -/
theorem calculateRelativePath_counterexample :
    calculateRelativePath (chars "./a/b/c.ts") (chars "./a") = chars ".." ∧
    (chars "./").isPrefixOf (calculateRelativePath (chars "./a/b/c.ts") (chars "./a")) = false ∧
    (chars "../").isPrefixOf (calculateRelativePath (chars "./a/b/c.ts") (chars "./a")) = false := by
  decide

/-- Prefix by a single character is exactly a head condition. -/
theorem singletonPrefix_iff (c : Char) (r : List Char) :
    [c].isPrefixOf r = true ↔ r.head? = some c := by
  cases r with
  | nil => simp
  | cons x r' =>
    simp only [List.isPrefixOf, List.isPrefixOf_nil_left, Bool.and_true, beq_iff_eq,
      List.head?_cons, Option.some.injEq]
    exact eq_comm

theorem head_dot_no_slash_prefix {r : List Char} (h : r.head? = some '.') :
    (chars "/").isPrefixOf r = false := by
  cases hx : (chars "/").isPrefixOf r with
  | false => rfl
  | true =>
    have hh := (singletonPrefix_iff '/' r).mp hx
    rw [h] at hh
    exact absurd (Option.some.inj hh) (by decide)

theorem joinSegs_cons_ne_dot {b : List Char} (rest : List (List Char))
    (hb : b.head? ≠ some '.') : (joinSegs (b :: rest)).head? ≠ some '.' := by
  cases rest with
  | nil => simpa [joinSegs] using hb
  | cons r rs =>
    have hj : joinSegs (b :: r :: rs) = b ++ '/' :: joinSegs (r :: rs) := rfl
    rw [hj]
    cases b with
    | nil =>
      simp only [List.nil_append, List.head?_cons]
      decide
    | cons c b' => simpa using hb

theorem joinSegs_dots_prefix (rest : List (List Char)) (hne : rest ≠ []) :
    (chars "../").isPrefixOf (joinSegs (chars ".." :: rest)) = true := by
  cases rest with
  | nil => exact absurd rfl hne
  | cons r rs =>
    have hj : joinSegs (chars ".." :: r :: rs) = chars ".." ++ '/' :: joinSegs (r :: rs) := rfl
    rw [hj]
    exact List.isPrefixOf_iff_prefix.mpr ⟨joinSegs (r :: rs), rfl⟩

/-- Shape of the raw segment-wise relative path: when no target segment
starts with a dot, the joined result either does not start with a dot
at all (a descent into target segments), or starts with the
parent-slash marker, or is exactly one bare parent segment. -/
theorem relSegs_shape (fd : List (List Char)) :
    ∀ ts : List (List Char), (∀ s ∈ ts, s.head? ≠ some '.') →
      (joinSegs (relSegs fd ts)).head? ≠ some '.' ∨
      (chars "../").isPrefixOf (joinSegs (relSegs fd ts)) = true ∨
      joinSegs (relSegs fd ts) = chars ".." := by
  induction fd with
  | nil =>
    intro ts hts
    left
    have hrel : relSegs [] ts = ts := by rw [relSegs]
    rw [hrel]
    cases ts with
    | nil =>
      rw [joinSegs]
      decide
    | cons b ts' => exact joinSegs_cons_ne_dot ts' (hts b (by simp))
  | cons a f ih =>
    intro ts hts
    cases ts with
    | nil =>
      have hrel : relSegs (a :: f) [] = List.replicate (a :: f).length (chars "..") := rfl
      rw [hrel]
      cases f with
      | nil =>
        right
        right
        rfl
      | cons g f' =>
        right
        left
        rw [show List.replicate (a :: g :: f').length (chars "..") =
            chars ".." :: List.replicate (g :: f').length (chars "..") from by
          rw [List.length_cons, List.replicate_succ]]
        apply joinSegs_dots_prefix
        simp [List.replicate_succ]
    | cons b t =>
      by_cases hab : a = b
      · have hrel : relSegs (a :: f) (b :: t) = relSegs f t := by
          rw [relSegs, if_pos hab]
        rw [hrel]
        exact ih t (fun s hs => hts s (by simp [hs]))
      · right
        left
        have hrel : relSegs (a :: f) (b :: t) =
            chars ".." :: (List.replicate f.length (chars "..") ++ b :: t) := by
          rw [relSegs, if_neg hab, List.length_cons, List.replicate_succ, List.cons_append]
        rw [hrel]
        apply joinSegs_dots_prefix
        simp

/-- Claim C3 (amended): for every pair of well-formed bundle-internal
logical paths (no target segment beginning with a dot), the Path
Resolver totally returns a relative specifier beginning with the
current-directory marker or the parent-directory-slash marker, except
when the target coincides with the parent chain of the source
directory, in which case the result is the bare parent specifier; the
result always begins with a dot and is never an absolute path. -/
theorem calculateRelativePath_shape (fromPath toPath : List Char)
    (hto : ∀ s ∈ segsOf (stripDotSlash toPath), s.head? ≠ some '.') :
    ((chars "./").isPrefixOf (calculateRelativePath fromPath toPath) = true ∨
     (chars "../").isPrefixOf (calculateRelativePath fromPath toPath) = true ∨
     calculateRelativePath fromPath toPath = chars "..") ∧
    (calculateRelativePath fromPath toPath).head? = some '.' ∧
    (chars "/").isPrefixOf (calculateRelativePath fromPath toPath) = false := by
  obtain ⟨rel, hcal, hreldef⟩ :
      ∃ rel, calculateRelativePath fromPath toPath =
        (if (chars ".").isPrefixOf rel then rel else chars "./" ++ rel) ∧
        rel = joinSegs (relSegs (dirSegsOf (stripDotSlash fromPath))
          (segsOf (stripDotSlash toPath))) := ⟨_, rfl, rfl⟩
  have hshape := relSegs_shape (dirSegsOf (stripDotSlash fromPath))
    (segsOf (stripDotSlash toPath)) hto
  rw [← hreldef] at hshape
  rw [hcal]
  rcases hshape with hnd | hpp | hdd
  · have hg : (chars ".").isPrefixOf rel = false := by
      cases hx : (chars ".").isPrefixOf rel with
      | false => rfl
      | true => exact absurd ((singletonPrefix_iff '.' rel).mp hx) hnd
    rw [if_neg (by simp [hg])]
    have hhead : (chars "./" ++ rel).head? = some '.' := rfl
    refine ⟨Or.inl ?_, hhead, head_dot_no_slash_prefix hhead⟩
    exact List.isPrefixOf_iff_prefix.mpr (List.prefix_append _ _)
  · obtain ⟨s, hs⟩ := List.isPrefixOf_iff_prefix.mp hpp
    have hhead : rel.head? = some '.' := by
      rw [← hs]
      rfl
    have hp : (chars ".").isPrefixOf rel = true := (singletonPrefix_iff '.' rel).mpr hhead
    rw [if_pos hp]
    exact ⟨Or.inr (Or.inl hpp), hhead, head_dot_no_slash_prefix hhead⟩
  · rw [hdd]
    refine ⟨Or.inr (Or.inr ?_), ?_, ?_⟩ <;> decide

/-- Claim C3 amended-theorem witness: a sibling-subdirectory target of
the documented example resolves to a current-directory-marked
specifier. -/
theorem calculateRelativePath_shape_witness :
    calculateRelativePath (chars "./app/src/Main.ts")
      (chars "./app/src/data/Globals.ts") = chars "./data/Globals.ts" ∧
    (((chars "./").isPrefixOf (calculateRelativePath (chars "./app/src/Main.ts")
        (chars "./app/src/data/Globals.ts")) = true ∨
      (chars "../").isPrefixOf (calculateRelativePath (chars "./app/src/Main.ts")
        (chars "./app/src/data/Globals.ts")) = true ∨
      calculateRelativePath (chars "./app/src/Main.ts")
        (chars "./app/src/data/Globals.ts") = chars "..") ∧
     (calculateRelativePath (chars "./app/src/Main.ts")
        (chars "./app/src/data/Globals.ts")).head? = some '.' ∧
     (chars "/").isPrefixOf (calculateRelativePath (chars "./app/src/Main.ts")
        (chars "./app/src/data/Globals.ts")) = false) :=
  ⟨by decide,
   calculateRelativePath_shape (chars "./app/src/Main.ts")
     (chars "./app/src/data/Globals.ts") (by decide)⟩


/-! ## Claim C5: fatal Scanner errors -/

theorem registryOf?_none_iff (b : List Char) :
    registryOf? b = none ↔ containsSubB registryMark b = false := by
  induction b with
  | nil => decide
  | cons c t ih =>
    rw [registryOf?, containsSubB]
    by_cases h : registryMark.isPrefixOf (c :: t)
    · simp [h]
    · simp [h, ih]

/-- Claim C5: the Scanner fails with the format error exactly when the
module-registry boundary marker is absent from the input text, fails
with the no-modules error exactly when the marker is present but zero
records survive the filter, and in both cases the run surfaces the
error and produces no output mapping. -/
theorem parseModules_fatal_errors (b : List Char) :
    (parseModules b = .error .formatError ↔ containsSubB registryMark b = false) ∧
    (parseModules b = .error .noModulesFound ↔
      containsSubB registryMark b = true ∧ scannedRecords b = []) ∧
    (∀ e, parseModules b = .error e → deconstruct b = .error e) := by
  refine ⟨?_, ?_, ?_⟩
  · rw [← registryOf?_none_iff]
    cases h : registryOf? b with
    | none => simp [parseModules, h]
    | some sec =>
      rw [parseModules, h]
      simp only [h]
      constructor
      · intro he
        split at he <;> simp_all
      · intro he
        exact absurd he (by simp)
  · cases h : registryOf? b with
    | none =>
      have hc := (registryOf?_none_iff b).mp h
      rw [parseModules, h]
      simp [hc]
    | some sec =>
      have hc : containsSubB registryMark b = true := by
        cases hcc : containsSubB registryMark b with
        | false => rw [(registryOf?_none_iff b).mpr hcc] at h; cases h
        | true => rfl
      rw [parseModules, h, scannedRecords, h]
      simp only [hc, true_and]
      constructor
      · intro he
        split at he
        · assumption
        · cases he
      · intro he
        simp [he]
  · intro e he
    rw [deconstruct, he]
    rfl

/-- Claim C5 witness: a markerless input fails with the format error and
yields no output mapping. -/
theorem parseModules_fatal_errors_witness :
    parseModules (chars "plain text, no registry") = .error .formatError ∧
    deconstruct (chars "plain text, no registry") = .error .formatError :=
  ⟨by decide,
   (parseModules_fatal_errors (chars "plain text, no registry")).2.2 .formatError (by decide)⟩

/-! ## Claim C4: vendored-path filtering -/

/-- The construction interface of the tool (source lines 7-12): the
constructor recognizes exactly an input file and an output directory;
it exposes no excluded-path-prefix option, the vendoring prefix being
the fixed literal of source line 81. -/
structure WebpackDeconstructor where
  inputFile : List Char
  outputDir : List Char

/-- Running the pipeline under a construction configuration: no
pipeline stage consults the configuration, which only feeds the
out-of-scope I/O shell. -/
def runWithOptions (_cfg : WebpackDeconstructor) (bundleContent : List Char) :
    Except PError (List (List Char × List Char)) :=
  deconstruct bundleContent

theorem parseModules_ok_shape (b : List Char) (recs : List WRecord)
    (h : parseModules b = .ok recs) :
    ∃ sec, registryOf? b = some sec ∧ recs = scanAux (sec.length + 1) sec := by
  rw [parseModules] at h
  cases hreg : registryOf? b with
  | none => rw [hreg] at h; cases h
  | some sec =>
    rw [hreg] at h
    refine ⟨sec, rfl, ?_⟩
    by_cases hnil : scanAux (sec.length + 1) sec = []
    · simp only [hnil, if_pos] at h
      cases h
    · simp only [if_neg hnil] at h
      exact (Except.ok.inj h).symm

theorem scanAux_eq_filter (fuel : Nat) (t : List Char) :
    scanAux fuel t =
      (rawScanAux fuel t).filter (fun r => !excludedPrefix.isPrefixOf r.path) := by
  induction fuel generalizing t with
  | zero => simp [scanAux, rawScanAux]
  | succ fuel ih =>
    cases t with
    | nil => simp [scanAux, rawScanAux]
    | cons c t =>
      rw [scanAux, rawScanAux]
      cases h : tryStartAt (c :: t) with
      | none => exact ih t
      | some pr =>
        obtain ⟨r, e2⟩ := pr
        by_cases he : excludedPrefix.isPrefixOf r.path
        · simp [he, ih e2]
        · simp [he, ih e2]

/-- Claim C4 (amended): the Scanner's filtering is governed by the
fixed hard-coded dependency-vendoring prefix, not by any recognized
configuration option — construction takes exactly an input file and an
output directory and the pipeline result is independent of both; the
records returned are exactly the raw regex matches whose path does not
start with that prefix (so with K application records and M excluded
records among the raw matches, exactly K are returned); no returned
record has an excluded path; and the output mapping transforms each
returned record independently of all others. -/
theorem parseModules_excludes_vendored (b : List Char) (recs : List WRecord)
    (h : parseModules b = .ok recs) :
    (∀ cfg : WebpackDeconstructor, runWithOptions cfg b = deconstruct b) ∧
    recs = (rawScannedRecords b).filter (fun r => !excludedPrefix.isPrefixOf r.path) ∧
    (∀ r ∈ recs, excludedPrefix.isPrefixOf r.path = false) ∧
    deconstruct b = .ok (recs.map (fun r =>
      (stripDotSlash r.path, transformModuleContent r.content r.path))) := by
  obtain ⟨sec, hreg, hrecs⟩ := parseModules_ok_shape b recs h
  have hfilter : recs =
      (rawScannedRecords b).filter (fun r => !excludedPrefix.isPrefixOf r.path) := by
    rw [hrecs, rawScannedRecords, hreg]
    exact scanAux_eq_filter (sec.length + 1) sec
  refine ⟨fun _ => rfl, hfilter, ?_, ?_⟩
  · intro r hr
    rw [hfilter] at hr
    have := List.of_mem_filter hr
    simpa using this
  · rw [deconstruct, h]
    rfl

/-- Assemble one well-formed module entry of a registry, used by the
concrete test bundles below. -/
def mkMod (p body : List Char) : List Char :=
  declMark ++ p ++ pathSep ++ chars "\n" ++ openerMark ++
  chars "module, __webpack_exports__, __webpack_require__" ++ paramClose ++ chars "\n" ++
  body ++ closeMark ++ chars ",\n"

/-- Concrete bundle with one vendored and one application module. -/
def bundleC4 : List Char :=
  chars "junk " ++ registryMark ++ chars "\n" ++
  mkMod (chars "./node_modules/dep/x.js") (chars "var v = 0;") ++
  mkMod (chars "./app.js") (chars "var a = 1;")

/-- Default wrapper parameter names of the test bundles. -/
def stdParams : List (List Char) :=
  [chars "module", chars "__webpack_exports__", chars "__webpack_require__"]

/-- The application record of the two-module test bundle. -/
def recC4 : WRecord :=
  { path := chars "./app.js", params := stdParams, content := chars "var a = 1;" }

/-- The vendored record of the two-module test bundle. -/
def recC4x : WRecord :=
  { path := chars "./node_modules/dep/x.js", params := stdParams,
    content := chars "var v = 0;" }

/-- Claim C4 counterexample: the construction interface recognizes
only an input file and an output directory — no excluded-path
configuration option exists — and the pipeline is the same function of
the bundle under every configuration, while the hard-coded prefix
still filters the vendored record of the two-module bundle. -/
theorem parseModules_no_prefix_option_counterexample :
    runWithOptions = (fun _ bundleContent => deconstruct bundleContent) ∧
    runWithOptions ⟨chars "main.js", chars "out"⟩ bundleC4 =
      runWithOptions ⟨chars "bundle.js", chars "elsewhere"⟩ bundleC4 ∧
    rawScannedRecords bundleC4 = [recC4x, recC4] ∧
    parseModules bundleC4 = .ok [recC4] :=
  ⟨rfl, rfl, by decide, by decide⟩

/-- Claim C4 witness: on a bundle with one application module and one
vendored module the raw scan finds both records but the Scanner returns
exactly the application one; a concrete configuration does not alter
the run, and the claimed filtering equality holds. -/
theorem parseModules_excludes_vendored_witness :
    parseModules bundleC4 = .ok [recC4] ∧
    rawScannedRecords bundleC4 = [recC4x, recC4] ∧
    runWithOptions ⟨chars "main.js", chars "out"⟩ bundleC4 = deconstruct bundleC4 ∧
    ([recC4] = (rawScannedRecords bundleC4).filter
        (fun r => !excludedPrefix.isPrefixOf r.path) ∧
      (∀ r ∈ [recC4], excludedPrefix.isPrefixOf r.path = false) ∧
      deconstruct bundleC4 = .ok ([recC4].map (fun r =>
        (stripDotSlash r.path, transformModuleContent r.content r.path)))) :=
  ⟨by decide, by decide,
   (parseModules_excludes_vendored bundleC4 [recC4] (by decide)).1
     ⟨chars "main.js", chars "out"⟩,
   (parseModules_excludes_vendored bundleC4 [recC4] (by decide)).2⟩

/-! ## Claim C6: import-shape classification from the binding name -/

theorem lazyStemAux_contains {acc t s : List Char}
    (h : lazyStemAux acc t = some s) : containsSubB wimMark t = true := by
  induction t generalizing acc with
  | nil => simp [lazyStemAux] at h
  | cons c t ih =>
    rw [lazyStemAux] at h
    cases hd : dropPre? wimMark t with
    | none =>
      rw [hd] at h
      rw [containsSubB, ih h]
      simp
    | some u =>
      rw [hd] at h
      by_cases hck : (u.takeWhile Char.isDigit ≠ [] ∧ u.drop (u.takeWhile Char.isDigit).length = chars "__")
      · have : containsSubB wimMark t = true :=
          containsSubB_of_decomp (a := []) (b := u) (by simpa using dropPre?_eq hd)
        rw [containsSubB, this]
        simp
      · have : containsSubB wimMark t = true :=
          containsSubB_of_decomp (a := []) (b := u) (by simpa using dropPre?_eq hd)
        rw [containsSubB, this]
        simp

theorem varNameMatch_contains {v stem : List Char}
    (h : varNameMatch v = some stem) : containsSubB wimMark v = true := by
  cases v with
  | nil => simp [varNameMatch] at h
  | cons c rest =>
    rw [varNameMatch] at h
    by_cases hc : c = '_'
    · rw [if_pos hc] at h
      rw [containsSubB, lazyStemAux_contains h]
      simp
    · rw [if_neg hc] at h
      cases h

/-- Claim C6: whenever the local binding name embeds the generated
module-index suffix so that the stem is extracted, the generated import
is a default import exactly when the stem is a single capitalized
alphanumeric word, and otherwise a named import with the underscore
separators stripped from the stem. -/
theorem generateImportStatement_classified (v rp stem : List Char)
    (hv : varNameMatch v = some stem) :
    generateImportStatement v rp =
      some (if isPascalB stem && !(stem.contains '_') then
              mkDefaultImport stem (stripExtension rp)
            else mkNamedImport (stem.filter (fun c => c ≠ '_')) (stripExtension rp)) := by
  have hc : containsSubB wimMark v = true := varNameMatch_contains hv
  rw [generateImportStatement, hc]
  simp only [if_true]
  rw [hv]
  cases hif : (isPascalB stem && !stem.contains '_') <;> simp_all

/-- Claim C6 witness: the stem Globals (single capitalized word) yields
a default import statement, not a named one. -/
theorem generateImportStatement_classified_witness :
    varNameMatch (chars "_Globals__WEBPACK_IMPORTED_MODULE_0__") = some (chars "Globals") ∧
    generateImportStatement (chars "_Globals__WEBPACK_IMPORTED_MODULE_0__")
        (chars "./data/Globals.ts") =
      some (chars "import Globals from \x27./data/Globals\x27;") := by
  refine ⟨by decide, ?_⟩
  rw [generateImportStatement_classified (chars "_Globals__WEBPACK_IMPORTED_MODULE_0__")
    (chars "./data/Globals.ts") (chars "Globals") (by decide)]
  decide

/-! ## Claim C9: extension stripping in emitted specifiers -/

/-- Claim C9 counterexample: a resolved relative path with a stacked
extension has only its outer extension stripped, so the emitted
specifier still ends in an extension and is not extension-free. -/
theorem generateImportStatement_extension_counterexample :
    generateImportStatement (chars "_Globals__WEBPACK_IMPORTED_MODULE_0__")
        (chars "./x.ts.ts") =
      some (chars "import Globals from \x27./x.ts\x27;") ∧
    (chars ".ts\x27;").isSuffixOf (chars "import Globals from \x27./x.ts\x27;") = true := by
  decide

/-- Every statement the import generator emits, in any of its three
emission branches (default, named, and fallback named import), embeds
the extension-stripped path between the from-marker and the closing
quote-semicolon. -/
theorem generateImportStatement_embeds (v rp st : List Char)
    (hgen : generateImportStatement v rp = some st) :
    ∃ pre, st = pre ++ chars " from \x27" ++ stripExtension rp ++ chars "\x27;" := by
  have hsplit : chars " \x7d from \x27" = chars " \x7d" ++ chars " from \x27" := by decide
  rw [generateImportStatement] at hgen
  cases hc : (if containsSubB wimMark v then varNameMatch v else none) with
  | none =>
    rw [hc] at hgen
    simp only [] at hgen
    cases hf : firstIdent v with
    | none =>
      rw [hf] at hgen
      exact absurd hgen (by simp)
    | some n =>
      rw [hf] at hgen
      simp only [Option.some.injEq] at hgen
      refine ⟨chars "import \x7b " ++ n ++ chars " \x7d", ?_⟩
      rw [← hgen]
      simp [mkNamedImport, hsplit, List.append_assoc]
  | some importName =>
    rw [hc] at hgen
    simp only [] at hgen
    cases hp : (isPascalB importName && !(importName.contains '_')) with
    | true =>
      rw [if_pos hp] at hgen
      simp only [Option.some.injEq] at hgen
      refine ⟨chars "import " ++ importName, ?_⟩
      rw [← hgen]
      simp [mkDefaultImport, List.append_assoc]
    | false =>
      rw [if_neg (by simp only [hp]; decide)] at hgen
      simp only [Option.some.injEq] at hgen
      refine ⟨chars "import \x7b " ++ importName.filter (fun c => c ≠ '_') ++ chars " \x7d", ?_⟩
      rw [← hgen]
      simp [mkNamedImport, hsplit, List.append_assoc]

theorem take_append_ext (q e : List Char) (he : e.length = 3) :
    (q ++ e).take ((q ++ e).length - 3) = q := by
  rw [List.length_append, he, Nat.add_sub_cancel]
  exact List.take_left q e

theorem stacked_suffix_lemma (rp q e ext2 : List Char)
    (hq : q ++ e = rp) (hsuf : ext2.isSuffixOf q = true) :
    (ext2 ++ e).isSuffixOf rp = true := by
  obtain ⟨r, hr⟩ := List.isSuffixOf_iff_suffix.mp hsuf
  exact List.isSuffixOf_iff_suffix.mpr ⟨r, by rw [← hq, ← hr]; simp [List.append_assoc]⟩

/-- Claim C9 (amended): every emitted import statement, whichever of
the three emission branches produced it, embeds (between quotes) the
resolved relative path with exactly one trailing script extension
stripped whenever the path ends in one; the embedded specifier is
extension-free unless the path ends in a stacked double extension, of
which only the outermost one is removed.  This stripping is nowhere
stated in the spec. -/
theorem generateImportStatement_strips_one_extension (v rp st : List Char)
    (hgen : generateImportStatement v rp = some st)
    (hext : (chars ".ts").isSuffixOf rp = true ∨ (chars ".js").isSuffixOf rp = true) :
    stripExtension rp = rp.take (rp.length - 3) ∧
    (∃ pre, st = pre ++ chars " from \x27" ++ rp.take (rp.length - 3) ++ chars "\x27;") ∧
    ((chars ".ts.ts").isSuffixOf rp = false → (chars ".js.ts").isSuffixOf rp = false →
     (chars ".ts.js").isSuffixOf rp = false → (chars ".js.js").isSuffixOf rp = false →
     (chars ".ts").isSuffixOf (rp.take (rp.length - 3)) = false ∧
     (chars ".js").isSuffixOf (rp.take (rp.length - 3)) = false) := by
  have hstrip : stripExtension rp = rp.take (rp.length - 3) := by
    rw [stripExtension]
    rcases hext with h | h <;> simp [h]
  refine ⟨hstrip, ?_, ?_⟩
  · obtain ⟨pre, hpre⟩ := generateImportStatement_embeds v rp st hgen
    rw [hstrip] at hpre
    exact ⟨pre, hpre⟩
  · intro h1 h2 h3 h4
    rcases hext with h | h
    · obtain ⟨q, hq⟩ := List.isSuffixOf_iff_suffix.mp h
      have htake : rp.take (rp.length - 3) = q := by
        rw [← hq]
        exact take_append_ext q (chars ".ts") (by decide)
      rw [htake]
      constructor
      · cases hx : (chars ".ts").isSuffixOf q with
        | false => rfl
        | true =>
          have hst := stacked_suffix_lemma rp q (chars ".ts") (chars ".ts") hq hx
          rw [show chars ".ts" ++ chars ".ts" = chars ".ts.ts" from by decide] at hst
          exact absurd (hst.symm.trans h1) (by decide)
      · cases hx : (chars ".js").isSuffixOf q with
        | false => rfl
        | true =>
          have hst := stacked_suffix_lemma rp q (chars ".ts") (chars ".js") hq hx
          rw [show chars ".js" ++ chars ".ts" = chars ".js.ts" from by decide] at hst
          exact absurd (hst.symm.trans h2) (by decide)
    · obtain ⟨q, hq⟩ := List.isSuffixOf_iff_suffix.mp h
      have htake : rp.take (rp.length - 3) = q := by
        rw [← hq]
        exact take_append_ext q (chars ".js") (by decide)
      rw [htake]
      constructor
      · cases hx : (chars ".ts").isSuffixOf q with
        | false => rfl
        | true =>
          have hst := stacked_suffix_lemma rp q (chars ".js") (chars ".ts") hq hx
          rw [show chars ".ts" ++ chars ".js" = chars ".ts.js" from by decide] at hst
          exact absurd (hst.symm.trans h3) (by decide)
      · cases hx : (chars ".js").isSuffixOf q with
        | false => rfl
        | true =>
          have hst := stacked_suffix_lemma rp q (chars ".js") (chars ".js") hq hx
          rw [show chars ".js" ++ chars ".js" = chars ".js.js" from by decide] at hst
          exact absurd (hst.symm.trans h4) (by decide)

/-- Claim C9 amended-theorem witness at a fallback-branch input: a
binding name without the module-index marker still yields a statement
embedding the once-stripped path. -/
theorem generateImportStatement_strips_one_extension_witness :
    generateImportStatement (chars "x") (chars "./a.js") =
      some (chars "import \x7b x \x7d from \x27./a\x27;") ∧
    (stripExtension (chars "./a.js") =
        (chars "./a.js").take ((chars "./a.js").length - 3) ∧
      (∃ pre, chars "import \x7b x \x7d from \x27./a\x27;" =
        pre ++ chars " from \x27" ++
          (chars "./a.js").take ((chars "./a.js").length - 3) ++ chars "\x27;") ∧
      ((chars ".ts.ts").isSuffixOf (chars "./a.js") = false →
       (chars ".js.ts").isSuffixOf (chars "./a.js") = false →
       (chars ".ts.js").isSuffixOf (chars "./a.js") = false →
       (chars ".js.js").isSuffixOf (chars "./a.js") = false →
       (chars ".ts").isSuffixOf ((chars "./a.js").take ((chars "./a.js").length - 3)) = false ∧
       (chars ".js").isSuffixOf ((chars "./a.js").take ((chars "./a.js").length - 3)) = false)) :=
  ⟨by decide,
   generateImportStatement_strips_one_extension (chars "x") (chars "./a.js")
     (chars "import \x7b x \x7d from \x27./a\x27;") (by decide) (Or.inr (by decide))⟩


/-! ## Claim C10: unconditional textual usage rewriting -/

/-- Claim C10: the usage rewriting is applied to every body
unconditionally, independent of whether any import binding was detected
(a body with no detected loader boilerplate is still passed through the
three textual replacement passes), and the replacement is purely
textual, rewriting matches wherever they occur, including inside string
literals and comments, as witnessed on a concrete body. -/
theorem replaceImportUsage_textual_unconditional :
    (∀ c p, harmonyMatches (c.length + 1) c = [] →
            defaultMatches (c.length + 1) c = [] →
            transformImports c p = replaceImportUsage c) ∧
    replaceImportUsage
        (chars "var s = \x22_Foo__WEBPACK_IMPORTED_MODULE_3__ ok\x22; // _Baz__WEBPACK_IMPORTED_MODULE_1__[\x22Q\x22]") =
      chars "var s = \x22Foo ok\x22; // Q" := by
  constructor
  · intro c p h1 h2
    rw [transformImports, h1, h2]
    rfl
  · decide

/-- Claim C10 witness: on a body whose only bundler references sit in
plain code with no detected import boilerplate, the Import Rewriter
output is exactly the unconditional textual usage rewrite. -/
theorem replaceImportUsage_textual_unconditional_witness :
    harmonyMatches ((chars "x = _A__WEBPACK_IMPORTED_MODULE_0__;").length + 1)
        (chars "x = _A__WEBPACK_IMPORTED_MODULE_0__;") = [] ∧
    transformImports (chars "x = _A__WEBPACK_IMPORTED_MODULE_0__;") (chars "./m.js") =
      replaceImportUsage (chars "x = _A__WEBPACK_IMPORTED_MODULE_0__;") :=
  ⟨by decide,
   replaceImportUsage_textual_unconditional.1 (chars "x = _A__WEBPACK_IMPORTED_MODULE_0__;")
     (chars "./m.js") (by decide) (by decide)⟩

/-! ## Claim C2: policy for loader calls with no recoverable path -/

/-- Body of the module carrying a require-like call with no recoverable
resolved path (no inline annotation comment, so the harmony import
pattern cannot match it). -/
def m3body : List Char :=
  chars "/* harmony import */ var _a = __webpack_require__(42);\nvar x3 = 3;"

/-- Five-module bundle whose third module has the unmatched loader. -/
def bundleC2 : List Char :=
  registryMark ++ chars "\n" ++
  mkMod (chars "./m1.js") (chars "var a1 = 1;") ++
  mkMod (chars "./m2.js") (chars "var a2 = 2;") ++
  mkMod (chars "./m3.js") m3body ++
  mkMod (chars "./m4.js") (chars "var a4 = 4;") ++
  mkMod (chars "./m5.js") (chars "var a5 = 5;")

/-- The five records of that bundle as the Scanner returns them. -/
def recsC2 : List WRecord :=
  [{ path := chars "./m1.js", params := stdParams, content := chars "var a1 = 1;" },
   { path := chars "./m2.js", params := stdParams, content := chars "var a2 = 2;" },
   { path := chars "./m3.js", params := stdParams, content := m3body },
   { path := chars "./m4.js", params := stdParams, content := chars "var a4 = 4;" },
   { path := chars "./m5.js", params := stdParams, content := chars "var a5 = 5;" }]

/-- Claim C2 counterexample: in the five-module bundle whose third
module has a require-like call with no recoverable resolved path, all
five entries are emitted, but the third module's final text does not
contain the unrewritten loader pattern: the Artifact Finalizer has
deleted the bare require invocation, leaving only the surrounding
assignment, even though the input body contained the call. -/
theorem deconstruct_unmatched_loader_counterexample :
    deconstruct bundleC2 =
      .ok [(chars "m1.js", chars "var a1 = 1;"),
           (chars "m2.js", chars "var a2 = 2;"),
           (chars "m3.js", chars "/* harmony import */ var _a = ;\nvar x3 = 3;"),
           (chars "m4.js", chars "var a4 = 4;"),
           (chars "m5.js", chars "var a5 = 5;")] ∧
    containsSubB (chars "__webpack_require__(42)") m3body = true ∧
    containsSubB (chars "__webpack_require__")
      (chars "/* harmony import */ var _a = ;\nvar x3 = 3;") = false := by
  refine ⟨by decide, by decide, by decide⟩

/-- Claim C2 (amended): a require-like call with no recoverable resolved
path is left untouched by the Import Rewriter (which detects nothing in
such a body), the module is still emitted and every scanned record
yields exactly one output entry (five records give five entries); the
Artifact Finalizer, however, later strips the bare require invocation
from the module's final text, so the emitted text keeps the surrounding
boilerplate but not the call itself. -/
theorem unmatched_loader_partial_success :
    transformImports m3body (chars "./m3.js") = m3body ∧
    transformModuleContent m3body (chars "./m3.js") =
      chars "/* harmony import */ var _a = ;\nvar x3 = 3;" ∧
    (∀ b recs, parseModules b = .ok recs →
      ∃ l, deconstruct b = .ok l ∧ l.length = recs.length) := by
  refine ⟨by decide, by decide, ?_⟩
  intro b recs h
  refine ⟨recs.map (fun r => (stripDotSlash r.path, transformModuleContent r.content r.path)),
    ?_, by simp⟩
  rw [deconstruct, h]
  rfl

/-- Claim C2 amended-theorem witness: the five-record bundle yields an
output mapping with exactly five entries. -/
theorem unmatched_loader_partial_success_witness :
    parseModules bundleC2 = .ok recsC2 ∧
    (∃ l, deconstruct bundleC2 = .ok l ∧ l.length = recsC2.length) :=
  ⟨by decide, unmatched_loader_partial_success.2.2 bundleC2 recsC2 (by decide)⟩

/-! ## Claim C8: Finalizer whitespace normalization -/

/-- Claim C8 counterexample: lines containing only horizontal
whitespace defeat the blank-line collapse, because the newline-run
collapse runs before the per-line trailing-whitespace trim; the final
text of this module keeps a run of five blank lines. -/
theorem transformModuleContent_blank_lines_counterexample :
    transformModuleContent (chars "a\n\n \n\n \n\nb") (chars "./m.js") =
      chars "a\n\n\n\n\n\nb" ∧
    containsSubB (chars "\n\n\n\n") (chars "a\n\n\n\n\n\nb") = true := by
  refine ⟨by decide, by decide⟩

theorem stripTrailingWS_no_trail (c0 : Char) (h0 : isHTab c0 = true) (t : List Char) :
    containsSubB [c0, '\n'] (stripTrailingWS t) = false := by
  induction t with
  | nil => simp [stripTrailingWS, containsSubB]
  | cons c t ih =>
    rw [stripTrailingWS]
    by_cases hg : (isHTab c &&
        (stripTrailingWS t = [] || (stripTrailingWS t).head? = some '\n' ||
          (stripTrailingWS t).head? = some '\r')) = true
    · rw [if_pos hg]
      exact ih
    · rw [if_neg hg]
      rw [containsSubB]
      have hpre : [c0, '\n'].isPrefixOf (c :: stripTrailingWS t) = false := by
        by_contra hp
        rw [Bool.not_eq_false] at hp
        obtain ⟨s, hs⟩ := List.isPrefixOf_iff_prefix.mp hp
        have h1 : c0 = c := by
          have := congrArg List.head? hs
          simpa using this
        have h2 : '\n' :: s = stripTrailingWS t := by
          have := congrArg List.tail hs
          simpa using this
        apply hg
        rw [← h1, h0, ← h2]
        simp
      rw [hpre, ih]
      rfl

theorem nlRun_head (t : List Char) (h : (nlRun t).2.head? = some '\n') : False := by
  induction t with
  | nil => simp [nlRun] at h
  | cons c t ih =>
    rw [nlRun] at h
    by_cases hc : c = '\n'
    · rw [if_pos hc] at h
      exact ih h
    · rw [if_neg hc] at h
      simp only [List.head?_cons, Option.some.injEq] at h
      exact hc h

theorem no_triple_cons_nl (r : List Char)
    (hA : containsSubB (chars "\n\n\n") r = false) (hB : r.head? ≠ some '\n') :
    containsSubB (chars "\n\n\n") ('\n' :: r) = false ∧
    containsSubB (chars "\n\n\n") ('\n' :: '\n' :: r) = false := by
  have hnl3 : chars "\n\n\n" = ['\n', '\n', '\n'] := rfl
  have hpre1 : ['\n', '\n', '\n'].isPrefixOf ('\n' :: r) = false := by
    cases r with
    | nil => rfl
    | cons r0 r' =>
      cases hr0 : (('\n' : Char) == r0) with
      | false => simp [List.isPrefixOf, hr0]
      | true =>
        exfalso
        apply hB
        have : '\n' = r0 := eq_of_beq hr0
        rw [← this]
        rfl
  have h1 : containsSubB (chars "\n\n\n") ('\n' :: r) = false := by
    rw [hnl3, containsSubB, hpre1]
    rw [hnl3] at hA
    rw [hA]
    rfl
  refine ⟨h1, ?_⟩
  have hpre2 : ['\n', '\n', '\n'].isPrefixOf ('\n' :: '\n' :: r) = false := by
    cases r with
    | nil => rfl
    | cons r0 r' =>
      cases hr0 : (('\n' : Char) == r0) with
      | false => simp [List.isPrefixOf, hr0]
      | true =>
        exfalso
        apply hB
        have : '\n' = r0 := eq_of_beq hr0
        rw [← this]
        rfl
  rw [hnl3, containsSubB, hpre2]
  rw [hnl3] at h1
  rw [h1]
  rfl

theorem collapseNLAux_no_triple (fuel : Nat) :
    ∀ t : List Char, t.length < fuel →
      containsSubB (chars "\n\n\n") (collapseNLAux fuel t) = false ∧
      ((collapseNLAux fuel t).head? = some '\n' → t.head? = some '\n') := by
  induction fuel with
  | zero =>
    intro t ht
    omega
  | succ fuel ih =>
    intro t ht
    cases t with
    | nil =>
      have hz : collapseNLAux (fuel + 1) [] = [] := rfl
      rw [hz]
      constructor
      · decide
      · intro h
        simp at h
    | cons c t =>
      rw [collapseNLAux]
      by_cases hc : c = '\n'
      · rw [if_pos hc]
        have hlen : (nlRun t).2.length < fuel := by
          have := nlRun_len t
          simp only [List.length_cons] at ht
          omega
        obtain ⟨ihA, ihB⟩ := ih (nlRun t).2 hlen
        have hhead : (collapseNLAux fuel (nlRun t).2).head? ≠ some '\n' := by
          intro hx
          exact nlRun_head t (ihB hx)
        constructor
        · by_cases h2 : 2 ≤ (nlRun t).1
          · rw [if_pos h2]
            exact (no_triple_cons_nl _ ihA hhead).2
          · rw [if_neg h2]
            rcases hn : (nlRun t).1 with _ | n
            · simpa using (no_triple_cons_nl _ ihA hhead).1
            · rcases n with _ | n
              · simpa using (no_triple_cons_nl _ ihA hhead).2
              · rw [hn] at h2
                omega
        · intro _
          rw [hc]
          rfl
      · rw [if_neg hc]
        have hlen : t.length < fuel := by
          simp only [List.length_cons] at ht
          omega
        obtain ⟨ihA, ihB⟩ := ih t hlen
        constructor
        · rw [containsSubB]
          have hpre : (chars "\n\n\n").isPrefixOf (c :: collapseNLAux fuel t) = false := by
            cases hcb : (('\n' : Char) == c) with
            | false => simp [chars, List.isPrefixOf, hcb]
            | true => exact absurd (eq_of_beq hcb).symm hc
          rw [hpre, ihA]
          rfl
        · intro hx
          simp only [List.head?_cons, Option.some.injEq] at hx
          exact absurd hx hc

theorem collapseNL_no_triple (t : List Char) :
    containsSubB (chars "\n\n\n") (collapseNL t) = false :=
  (collapseNLAux_no_triple (t.length + 1) t (by omega)).1

/-- Claim C8 (amended): after the Artifact Finalizer and the final
whole-body trim, no line of the emitted text carries trailing
horizontal whitespace (there is no space-newline or tab-newline pair
and the last character is not whitespace), the whole body carries no
leading or trailing whitespace, and the newline-run collapse itself
leaves no run of three or more newline characters; however, because the
collapse runs before the per-line trailing-whitespace trim, lines
holding only horizontal whitespace can still produce runs of more than
one blank line in the final text (see the counterexample). -/
theorem transformModuleContent_whitespace (content p : List Char) :
    containsSubB (chars " \n") (transformModuleContent content p) = false ∧
    containsSubB (chars "\t\n") (transformModuleContent content p) = false ∧
    (∀ c, (transformModuleContent content p).head? = some c → isJsWs c = false) ∧
    (∀ c, (transformModuleContent content p).getLast? = some c → isJsWs c = false) ∧
    (∀ t, containsSubB (chars "\n\n\n") (collapseNL t) = false) := by
  obtain ⟨u, hu⟩ : ∃ u, transformModuleContent content p =
      trimChars (stripTrailingWS (collapseNL u)) := ⟨_, rfl⟩
  rw [hu]
  refine ⟨?_, ?_, ?_, ?_, collapseNL_no_triple⟩
  · cases hcc : containsSubB (chars " \n") (trimChars (stripTrailingWS (collapseNL u))) with
    | false => rfl
    | true =>
      exfalso
      have hmono := containsSubB_mono (trimChars_contained (stripTrailingWS (collapseNL u))) hcc
      have hno : containsSubB (chars " \n") (stripTrailingWS (collapseNL u)) = false :=
        stripTrailingWS_no_trail ' ' (by decide) (collapseNL u)
      rw [hno] at hmono
      cases hmono
  · cases hcc : containsSubB (chars "\t\n") (trimChars (stripTrailingWS (collapseNL u))) with
    | false => rfl
    | true =>
      exfalso
      have hmono := containsSubB_mono (trimChars_contained (stripTrailingWS (collapseNL u))) hcc
      have hno : containsSubB (chars "\t\n") (stripTrailingWS (collapseNL u)) = false :=
        stripTrailingWS_no_trail '\t' (by decide) (collapseNL u)
      rw [hno] at hmono
      cases hmono
  · intro c hcp
    exact trimChars_head_not_ws _ hcp
  · intro c hcp
    exact trimChars_last_not_ws _ hcp

/-- Claim C8 amended-theorem witness on a concrete module body with
trailing spaces and tabs. -/
theorem transformModuleContent_whitespace_witness :
    containsSubB (chars " \n") (transformModuleContent
      (chars "x = 1;  \ny = 2;\t\n") (chars "./w.js")) = false ∧
    (transformModuleContent (chars "x = 1;  \ny = 2;\t\n") (chars "./w.js")).head? =
      some 'x' ∧
    isJsWs 'x' = false :=
  ⟨(transformModuleContent_whitespace (chars "x = 1;  \ny = 2;\t\n") (chars "./w.js")).1,
   by decide,
   (transformModuleContent_whitespace (chars "x = 1;  \ny = 2;\t\n")
     (chars "./w.js")).2.2.1 'x' (by decide)⟩

/-! ## Claim C7: export classification and rewriting -/

/-- Claim C7 counterexample: for a binding registration whose external
name (Alias) differs from the returned local expression (Foo), the
rewriter classifies and rewrites by the local expression, not by the
exported name: a body declaring the exported name as a class gets no
declaration-site rewrite, and the appended clause names the local
expression rather than the exported name. -/
theorem generateExportStatement_counterexample :
    applyExportStatements (chars "class Alias \x7b\n\x7d")
        [generateExportStatement (chars "Alias") (chars "Foo")
          (chars "class Alias \x7b\n\x7d")] =
      chars "class Alias \x7b\n\x7d\nexport \x7b Foo \x7d;" ∧
    containsSubB (chars "export class")
      (chars "class Alias \x7b\n\x7d\nexport \x7b Foo \x7d;") = false ∧
    containsSubB (chars "export \x7b Alias \x7d")
      (chars "class Alias \x7b\n\x7d\nexport \x7b Foo \x7d;") = false := by
  refine ⟨by decide, by decide, by decide⟩

/-- Scan for a position where the replacement matcher fires. -/
def hasHitB (try1 : List Char → Option (List Char × List Char)) : List Char → Bool
  | [] => false
  | c :: t => (try1 (c :: t)).isSome || hasHitB try1 t

theorem replaceScan_contains_rep (try1 : List Char → Option (List Char × List Char))
    (rep : List Char) (hconst : ∀ t x rest, try1 t = some (x, rest) → x = rep) :
    ∀ fuel t, t.length < fuel → hasHitB try1 t = true →
      containsSubB rep (replaceScan try1 fuel t) = true := by
  intro fuel
  induction fuel with
  | zero =>
    intro t ht
    omega
  | succ fuel ih =>
    intro t ht hhit
    cases t with
    | nil => simp [hasHitB] at hhit
    | cons c t =>
      rw [replaceScan]
      cases htry : try1 (c :: t) with
      | some pr =>
        obtain ⟨x, rest⟩ := pr
        have hx : x = rep := hconst _ _ _ htry
        subst hx
        exact containsSubB_of_decomp (a := []) (b := replaceScan try1 fuel rest) rfl
      | none =>
        rw [hasHitB, htry] at hhit
        simp only [Option.isSome_none, Bool.false_or] at hhit
        rw [containsSubB]
        have hlen : t.length < fuel := by
          simp only [List.length_cons] at ht
          omega
        rw [ih t hlen hhit]
        simp

theorem hasDeclB_eq_hasHit_class (name t : List Char) :
    hasDeclB (chars "class") name '\x7b' t = hasHitB (classRepl name) t := by
  induction t with
  | nil => rfl
  | cons c t ih =>
    rw [hasDeclB, hasHitB, ih]
    congr 1
    rw [classRepl]
    cases tryDeclAt (chars "class") name '\x7b' (c :: t) <;> rfl

theorem hasDeclB_eq_hasHit_fn (name t : List Char) :
    hasDeclB (chars "function") name '(' t = hasHitB (fnRepl name) t := by
  induction t with
  | nil => rfl
  | cons c t ih =>
    rw [hasDeclB, hasHitB, ih]
    congr 1
    rw [fnRepl]
    cases tryDeclAt (chars "function") name '(' (c :: t) <;> rfl

/-- Claim C7 (amended): for every detected export binding the rewriter
classifies the declaration kind of the RETURNED LOCAL EXPRESSION by
scanning the body with precedence class over function over variable,
first match winning; a class or function declaration of the local
expression is rewritten in place to prepend the export qualifier (all
its declaration sites, so the rewritten body contains the exported
declaration head), and in every other case, including when no matching
declaration exists, a trailing clause naming the local expression is
appended instead. -/
theorem applyExport_classification (name value body : List Char) :
    applyExportStatements body [generateExportStatement name value body] =
      (if hasDeclB (chars "class") value '\x7b' body = true then
         replaceScan (classRepl value) (body.length + 1) body
       else if hasDeclB (chars "function") value '(' body = true then
         replaceScan (fnRepl value) (body.length + 1) body
       else body ++ chars "\nexport \x7b " ++ value ++ chars " \x7d;") ∧
    (hasDeclB (chars "class") value '\x7b' body = true →
      containsSubB (chars "export class " ++ value ++ chars " \x7b")
        (applyExportStatements body [generateExportStatement name value body]) = true) ∧
    (hasDeclB (chars "class") value '\x7b' body = false →
     hasDeclB (chars "function") value '(' body = true →
      containsSubB (chars "export function " ++ value ++ chars "(")
        (applyExportStatements body [generateExportStatement name value body]) = true) := by
  have hmain : applyExportStatements body [generateExportStatement name value body] =
      (if hasDeclB (chars "class") value '\x7b' body = true then
         replaceScan (classRepl value) (body.length + 1) body
       else if hasDeclB (chars "function") value '(' body = true then
         replaceScan (fnRepl value) (body.length + 1) body
       else body ++ chars "\nexport \x7b " ++ value ++ chars " \x7d;") := by
    rw [generateExportStatement]
    by_cases hc : hasDeclB (chars "class") value '\x7b' body = true
    · rw [if_pos hc, if_pos hc]
      rfl
    · rw [if_neg hc, if_neg hc]
      by_cases hf : hasDeclB (chars "function") value '(' body = true
      · rw [if_pos hf, if_pos hf]
        rfl
      · rw [if_neg hf, if_neg hf]
        by_cases hv : (hasDeclB (chars "const") value '=' body
            || hasDeclB (chars "let") value '=' body
            || hasDeclB (chars "var") value '=' body) = true
        · rw [if_pos hv]
          rfl
        · rw [if_neg hv]
          rfl
  refine ⟨hmain, ?_, ?_⟩
  · intro hc
    rw [hmain, if_pos hc]
    apply replaceScan_contains_rep (classRepl value)
      (chars "export class " ++ value ++ chars " \x7b") ?_ (body.length + 1) body
      (by omega)
    · rw [← hasDeclB_eq_hasHit_class]
      exact hc
    · intro t x rest htry
      rw [classRepl] at htry
      cases hdecl : tryDeclAt (chars "class") value '\x7b' t with
      | none => rw [hdecl] at htry; cases htry
      | some r =>
        rw [hdecl] at htry
        simp at htry
        exact htry.1.symm
  · intro hc hf
    rw [hmain, if_neg (by simp [hc]), if_pos hf]
    apply replaceScan_contains_rep (fnRepl value)
      (chars "export function " ++ value ++ chars "(") ?_ (body.length + 1) body
      (by omega)
    · rw [← hasDeclB_eq_hasHit_fn]
      exact hf
    · intro t x rest htry
      rw [fnRepl] at htry
      cases hdecl : tryDeclAt (chars "function") value '(' t with
      | none => rw [hdecl] at htry; cases htry
      | some r =>
        rw [hdecl] at htry
        simp at htry
        exact htry.1.symm

/-- Claim C7 amended-theorem witness: the Main example of the spec, at
which the classification picks the class kind and the declaration site
is rewritten in place. -/
theorem applyExport_classification_witness :
    hasDeclB (chars "class") (chars "Main") '\x7b' (chars "class Main \x7b\n\x7d") = true ∧
    containsSubB (chars "export class " ++ chars "Main" ++ chars " \x7b")
      (applyExportStatements (chars "class Main \x7b\n\x7d")
        [generateExportStatement (chars "Main") (chars "Main")
          (chars "class Main \x7b\n\x7d")]) = true :=
  ⟨by decide,
   (applyExport_classification (chars "Main") (chars "Main")
     (chars "class Main \x7b\n\x7d")).2.1 (by decide)⟩

/-! ## Claim C1: Scanner boundary correctness -/

theorem dropComma_suffix (t : List Char) : dropComma t <:+ t := by
  cases t with
  | nil => simp [dropComma]
  | cons c r =>
    rw [dropComma]
    by_cases hc : c = ','
    · rw [if_pos hc]
      exact List.suffix_cons c r
    · rw [if_neg hc]

theorem wsRun2_suffix (t : List Char) : (wsRun t).2 <:+ t :=
  ⟨(wsRun t).1, (wsRun_eq t).symm⟩

theorem anchorTail?_props {t e2 : List Char} (h : anchorTail? t = some e2) :
    e2 <:+ t ∧ (e2 = [] ∨ declMark.isPrefixOf e2 = true) := by
  rw [anchorTail?] at h
  by_cases hc : ((wsRun (dropComma t)).2 = [] ||
      declMark.isPrefixOf (wsRun (dropComma t)).2) = true
  · rw [if_pos hc] at h
    have he := Option.some.inj h
    subst he
    refine ⟨(wsRun2_suffix _).trans (dropComma_suffix t), ?_⟩
    simpa using hc
  · rw [if_neg hc] at h
    cases h

theorem anchoredAt?_suffix {x e2 : List Char} (h : anchoredAt? x = some e2) :
    e2 <:+ x := by
  rw [anchoredAt?] at h
  cases hd : dropPre? closeMark x with
  | none => rw [hd] at h; cases h
  | some u =>
    rw [hd] at h
    simp only [] at h
    have h1 := (anchorTail?_props h).1
    rw [dropPre?_eq hd]
    exact h1.trans ⟨closeMark, rfl⟩

theorem anchoredAt?_isSome_props {x : List Char} (h : (anchoredAt? x).isSome = true) :
    closeMark.isPrefixOf x = true ∧
    ∃ after, anchorTail? (x.drop closeMark.length) = some after ∧
      (after = [] ∨ declMark.isPrefixOf after = true) := by
  rw [anchoredAt?] at h
  cases hd : dropPre? closeMark x with
  | none => rw [hd] at h; simp at h
  | some u =>
    rw [hd] at h
    simp only [] at h
    cases hat : anchorTail? u with
    | none => rw [hat] at h; simp at h
    | some after =>
      have hx : x = closeMark ++ u := dropPre?_eq hd
      have hpre : closeMark.isPrefixOf x = true := by
        rw [dropPre?] at hd
        by_cases hp : closeMark.isPrefixOf x
        · exact hp
        · rw [if_neg hp] at hd; cases hd
      have hu : u = x.drop closeMark.length := by
        rw [hx, List.drop_left]
      refine ⟨hpre, after, ?_, (anchorTail?_props hat).2⟩
      rw [← hu]
      exact hat

theorem findAC_props {t b r : List Char} (h : findAC t = some (b, r)) :
    t = b ++ r ∧ (anchoredAt? r).isSome = true ∧
    ∀ b1 b2, b = b1 ++ b2 → b2 ≠ [] → (anchoredAt? (b2 ++ r)).isSome = false := by
  induction t generalizing b with
  | nil => simp [findAC] at h
  | cons c t ih =>
    rw [findAC] at h
    by_cases ha : (anchoredAt? (c :: t)).isSome = true
    · rw [if_pos ha] at h
      have hinj := Option.some.inj h
      rw [Prod.mk.injEq] at hinj
      obtain ⟨hb, hr⟩ := hinj
      subst hb
      subst hr
      refine ⟨rfl, ha, ?_⟩
      intro b1 b2 hsplit hne
      exact absurd (List.append_eq_nil.mp hsplit.symm).2 hne
    · rw [if_neg ha] at h
      cases hm : findAC t with
      | none => rw [hm] at h; cases h
      | some pr =>
        obtain ⟨b', r'⟩ := pr
        rw [hm] at h
        have hinj := Option.some.inj h
        rw [Prod.mk.injEq] at hinj
        obtain ⟨hb, hr⟩ := hinj
        subst hb
        subst hr
        obtain ⟨hdec, hanch, hmin⟩ := ih hm
        refine ⟨by simp [hdec], hanch, ?_⟩
        intro b1 b2 hsplit hne
        cases b1 with
        | nil =>
          simp only [List.nil_append] at hsplit
          subst hsplit
          have hct : (c :: b') ++ r' = c :: t := by
            simp [hdec]
          rw [hct]
          simpa using ha
        | cons x b1' =>
          rw [List.cons_append] at hsplit
          injection hsplit with hx hb'
          exact hmin b1' b2 hb' hne

theorem tryOpenAt_props {t params body e2 : List Char}
    (h : tryOpenAt t = some (params, body, e2)) :
    ∃ rest, (body ++ rest) <:+ t ∧ (anchoredAt? rest).isSome = true ∧ e2 <:+ t ∧
      ∀ b1 b2, body = b1 ++ b2 → b2 ≠ [] →
        (anchoredAt? (b2 ++ rest)).isSome = false := by
  rw [tryOpenAt] at h
  cases h1 : dropPre? openerMark t with
  | none => rw [h1] at h; cases h
  | some r1 =>
    rw [h1] at h
    simp only [] at h
    cases h2 : scanUntil ')' r1 with
    | none => rw [h2] at h; cases h
    | some pr2 =>
      obtain ⟨params', r2⟩ := pr2
      rw [h2] at h
      simp only [] at h
      cases h3 : dropPre? paramClose r2 with
      | none => rw [h3] at h; cases h
      | some r3 =>
        rw [h3] at h
        simp only [] at h
        have hsubT : r3 <:+ t := by
          rw [dropPre?_eq h1, scanUntil_eq h2, dropPre?_eq h3]
          exact ⟨openerMark ++ params' ++ paramClose, by simp⟩
        have hws : (wsRun r3).2 <:+ r3 := wsRun2_suffix r3
        cases h4 : findAC (wsRun r3).2 with
        | some pr4 =>
          obtain ⟨b, rc⟩ := pr4
          rw [h4] at h
          simp only [] at h
          cases h5 : anchoredAt? rc with
          | none => rw [h5] at h; cases h
          | some e2' =>
            rw [h5] at h
            simp only [] at h
            have hinj := Option.some.inj h
            simp only [Prod.mk.injEq] at hinj
            obtain ⟨hp, hb, he⟩ := hinj
            subst hp
            subst hb
            subst he
            obtain ⟨hdec, hanch, hmin⟩ := findAC_props h4
            refine ⟨rc, ?_, hanch, ?_, hmin⟩
            · rw [← hdec]
              exact hws.trans hsubT
            · have h6 : e2' <:+ rc := anchoredAt?_suffix h5
              have h7 : rc <:+ (wsRun r3).2 := by
                rw [hdec]
                exact ⟨b, rfl⟩
              exact ((h6.trans h7).trans hws).trans hsubT
        | none =>
          rw [h4] at h
          simp only [] at h
          by_cases h5 : (wsRun r3).1.getLast? = some '\n'
          · rw [if_pos h5] at h
            cases h6 : anchoredAt? ('\n' :: (wsRun r3).2) with
            | none => rw [h6] at h; cases h
            | some e2' =>
              rw [h6] at h
              simp only [] at h
              have hinj := Option.some.inj h
              simp only [Prod.mk.injEq] at hinj
              obtain ⟨hp, hb, he⟩ := hinj
              subst hp
              subst he
              obtain ⟨ws', hws'⟩ := List.getLast?_eq_some_iff.mp h5
              have hr3 : r3 = ws' ++ ('\n' :: (wsRun r3).2) := by
                conv_lhs => rw [wsRun_eq r3]
                rw [hws']
                simp
              have hsub2 : ('\n' :: (wsRun r3).2) <:+ t := by
                refine List.IsSuffix.trans ?_ hsubT
                conv_rhs => rw [hr3]
                exact ⟨ws', rfl⟩
              refine ⟨'\n' :: (wsRun r3).2, ?_, ?_, ?_, ?_⟩
              · rw [← hb]
                simpa using hsub2
              · rw [h6]
                rfl
              · exact (anchoredAt?_suffix h6).trans hsub2
              · intro b1 b2 hsplit hne
                rw [← hb] at hsplit
                exact absurd (List.append_eq_nil.mp hsplit.symm).2 hne
          · rw [if_neg h5] at h
            cases h

theorem findOpen_props {t params body e2 : List Char}
    (h : findOpen t = some (params, body, e2)) :
    ∃ rest, (body ++ rest) <:+ t ∧ (anchoredAt? rest).isSome = true ∧ e2 <:+ t ∧
      ∀ b1 b2, body = b1 ++ b2 → b2 ≠ [] →
        (anchoredAt? (b2 ++ rest)).isSome = false := by
  induction t with
  | nil => simp [findOpen] at h
  | cons c t ih =>
    rw [findOpen] at h
    cases ht : tryOpenAt (c :: t) with
    | some pr =>
      rw [ht] at h
      have := Option.some.inj h
      subst this
      exact tryOpenAt_props ht
    | none =>
      rw [ht] at h
      obtain ⟨rest, hA, hB, hC, hD⟩ := ih h
      exact ⟨rest, hA.trans (List.suffix_cons c t), hB,
        hC.trans (List.suffix_cons c t), hD⟩

theorem tryStartAt_props {t : List Char} {rec : WRecord} {e2 : List Char}
    (h : tryStartAt t = some (rec, e2)) :
    (∃ bodyRaw rest, rec.content = trimChars bodyRaw ∧
      (bodyRaw ++ rest) <:+ t ∧ (anchoredAt? rest).isSome = true ∧
      (∀ b1 b2, bodyRaw = b1 ++ b2 → b2 ≠ [] →
        (anchoredAt? (b2 ++ rest)).isSome = false)) ∧ e2 <:+ t := by
  rw [tryStartAt] at h
  cases h1 : dropPre? declMark t with
  | none => rw [h1] at h; cases h
  | some r1 =>
    rw [h1] at h
    simp only [] at h
    cases h2 : scanUntil '"' r1 with
    | none => rw [h2] at h; cases h
    | some pr =>
      obtain ⟨path, r2⟩ := pr
      rw [h2] at h
      simp only [] at h
      by_cases hp : path = []
      · rw [if_pos hp] at h
        cases h
      · rw [if_neg hp] at h
        cases h3 : dropPre? pathSep r2 with
        | none => rw [h3] at h; cases h
        | some r3 =>
          rw [h3] at h
          simp only [] at h
          cases h4 : findOpen r3 with
          | none => rw [h4] at h; cases h
          | some pr4 =>
            obtain ⟨params, body, e2'⟩ := pr4
            rw [h4] at h
            simp only [] at h
            have hinj := Option.some.inj h
            rw [Prod.mk.injEq] at hinj
            obtain ⟨hrec, he2⟩ := hinj
            subst he2
            have hsubT : r3 <:+ t := by
              rw [dropPre?_eq h1, scanUntil_eq h2, dropPre?_eq h3]
              exact ⟨declMark ++ path ++ pathSep, by simp⟩
            obtain ⟨rest, hA, hB, hC, hD⟩ := findOpen_props h4
            refine ⟨⟨body, rest, ?_, hA.trans hsubT, hB, hD⟩, hC.trans hsubT⟩
            rw [← hrec]

theorem scanAux_mem {fuel : Nat} {t : List Char} {r : WRecord}
    (h : r ∈ scanAux fuel t) :
    ∃ bodyRaw rest, r.content = trimChars bodyRaw ∧
      (bodyRaw ++ rest) <:+ t ∧ (anchoredAt? rest).isSome = true ∧
      ∀ b1 b2, bodyRaw = b1 ++ b2 → b2 ≠ [] →
        (anchoredAt? (b2 ++ rest)).isSome = false := by
  induction fuel generalizing t with
  | zero => simp [scanAux] at h
  | succ fuel ih =>
    cases t with
    | nil => simp [scanAux] at h
    | cons c t =>
      rw [scanAux] at h
      cases hs : tryStartAt (c :: t) with
      | none =>
        rw [hs] at h
        obtain ⟨bodyRaw, rest, h1, h2, h3, h4⟩ := ih h
        exact ⟨bodyRaw, rest, h1, h2.trans (List.suffix_cons c t), h3, h4⟩
      | some pr =>
        obtain ⟨r0, e2⟩ := pr
        rw [hs] at h
        simp only [] at h
        obtain ⟨hprops, hsufe2⟩ := tryStartAt_props hs
        by_cases he : excludedPrefix.isPrefixOf r0.path = true
        · rw [if_pos he] at h
          obtain ⟨bodyRaw, rest, h1, h2, h3, h4⟩ := ih h
          exact ⟨bodyRaw, rest, h1, h2.trans hsufe2, h3, h4⟩
        · rw [if_neg he] at h
          rcases List.mem_cons.mp h with hr0 | hmem
          · subst hr0
            obtain ⟨bodyRaw, rest, h1, h2, h3, h4⟩ := hprops
            exact ⟨bodyRaw, rest, h1, h2, h3, h4⟩
          · obtain ⟨bodyRaw, rest, h1, h2, h3, h4⟩ := ih hmem
            exact ⟨bodyRaw, rest, h1, h2.trans hsufe2, h3, h4⟩

/-- Claim C1: every record of the Scanner decomposes the registry text
so that the record's raw body is followed by the wrapper-close marker,
whose tail (optional comma, whitespace) is anchored at the next
module-path declaration or the end of the registry text; and no
position strictly inside the raw body carries such an anchored close,
so a fragment inside the body that merely resembles the close marker
(for instance inside a string literal or comment) does not truncate the
record early and stays in the body intact. -/
theorem parseModules_body_boundary (b : List Char) (recs : List WRecord) (r : WRecord)
    (hp : parseModules b = .ok recs) (hr : r ∈ recs) :
    ∃ sec bodyRaw rest, registryOf? b = some sec ∧
      r.content = trimChars bodyRaw ∧
      (bodyRaw ++ rest) <:+ sec ∧
      closeMark.isPrefixOf rest = true ∧
      (∃ after, anchorTail? (rest.drop closeMark.length) = some after ∧
        (after = [] ∨ declMark.isPrefixOf after = true)) ∧
      (∀ b1 b2, bodyRaw = b1 ++ b2 → b2 ≠ [] →
        (anchoredAt? (b2 ++ rest)).isSome = false) := by
  obtain ⟨sec, hreg, hrecs⟩ := parseModules_ok_shape b recs hp
  subst hrecs
  obtain ⟨bodyRaw, rest, h1, h2, h3, h4⟩ := scanAux_mem hr
  obtain ⟨hc, after, hat, hd⟩ := anchoredAt?_isSome_props h3
  exact ⟨sec, bodyRaw, rest, hreg, h1, h2, hc, ⟨after, hat, hd⟩, h4⟩

/-- Single-module bundle whose body holds, inside a block comment, a
fragment that textually resembles the wrapper-close marker. -/
def bundleC1 : List Char :=
  registryMark ++ chars "\n" ++
  mkMod (chars "./m.js") (chars "/* \n/***/ \x7d), nope */\nvar t = 1;")

/-- The single record the Scanner finds in that bundle. -/
def recC1 : WRecord :=
  { path := chars "./m.js", params := stdParams,
    content := chars "/* \n/***/ \x7d), nope */\nvar t = 1;" }

/-- Claim C1 witness: the record's body keeps the close-marker-like
fragment intact (no early truncation), and the boundary decomposition
of the theorem holds for it. -/
theorem parseModules_body_boundary_witness :
    parseModules bundleC1 = .ok [recC1] ∧
    containsSubB closeMark recC1.content = true ∧
    (∃ sec bodyRaw rest, registryOf? bundleC1 = some sec ∧
      recC1.content = trimChars bodyRaw ∧
      (bodyRaw ++ rest) <:+ sec ∧
      closeMark.isPrefixOf rest = true ∧
      (∃ after, anchorTail? (rest.drop closeMark.length) = some after ∧
        (after = [] ∨ declMark.isPrefixOf after = true)) ∧
      (∀ b1 b2, bodyRaw = b1 ++ b2 → b2 ≠ [] →
        (anchoredAt? (b2 ++ rest)).isSome = false)) :=
  ⟨by decide, by decide,
   parseModules_body_boundary bundleC1 [recC1] recC1 (by decide) (by simp)⟩
